import Mathlib

/-!
# Verification of the pairtree tree-space MCMC sampler core

A shallow embedding of the core of `ahart34/pairtree`
(`src/lib/tree_sampler.py`, `src/common.py`, `src/tree_builder.py`)
together with proofs about it.

Conventions used throughout:

* numpy 0/1 integer matrices become functions `Fin (K+1) → Fin (K+1) → ℕ`
  (`K+1` tree nodes, node `0` is the root, nodes `1..K` correspond to the
  `K` mutation clusters `0..K-1`);
* floating-point computations become computations over `ℝ` (and `EReal`
  where the source stores `-np.inf`);
* Python's in-place edits on copies of arrays become pure functional updates
  (the source always copies before editing, so value semantics is faithful);
* unbounded `while`/recursion in the source is embedded with an explicit
  fuel parameter that is provably sufficient on the valid inputs the source
  runs on;
* the stochastic choices (`np.random.*`) and the external frequency fitter
  are oracle parameters of the embedded functions.
-/

namespace Pairtree

/-! ## Relation classes (`common.Models`)

`Models._all = ('garbage', 'cocluster', 'A_B', 'B_A', 'diff_branches')`,
so the class of a pairwise relation is an index in `Fin 5`. -/

namespace Models

def garbage : Fin 5 := 0
def cocluster : Fin 5 := 1
def A_B : Fin 5 := 2
def B_A : Fin 5 := 3
def diff_branches : Fin 5 := 4

end Models

/-! ## Adjacency matrices and the tree invariants -/

/-- A square "adjacency-style" matrix on the `K+1` nodes of a clone tree,
mirroring the numpy integer arrays of `tree_sampler.py`.  Entry `adj i j`
is `1` iff `i = j` or `i` is the immediate parent of `j`. -/
abbrev Adjm (K : ℕ) := Fin (K + 1) → Fin (K + 1) → ℕ

variable {K : ℕ}

/-- Column sum `np.sum(adj, axis=0)[j]`. -/
def colSum (adj : Adjm K) (j : Fin (K + 1)) : ℕ := ∑ i, adj i j

/-- `np.fill_diagonal(m, v)` (as a pure update). -/
def fillDiag (m : Adjm K) (v : ℕ) : Adjm K := fun i j => if i = j then v else m i j

/-- The parent of node `j`: the unique `i ≠ j` with `adj i j = 1`.  For the
root (or a malformed column) this returns `j` itself.  This is the semantic
content of `_find_parent` in `tree_sampler.py`, used here as the basic tool
for stating the tree invariants. -/
def par (adj : Adjm K) (j : Fin (K + 1)) : Fin (K + 1) :=
  match (List.finRange (K + 1)).find? (fun i => decide (i ≠ j) && decide (adj i j = 1)) with
  | some i => i
  | none => j

/-- The adjacency invariants from §3 of the spec: entries are 0/1, the
diagonal is all 1, node 0's column sums to 1, every other column sums to 2
(self + one parent), and following parents from any node reaches the root —
equivalently, the graph minus self-loops is a single tree rooted at node 0,
so that a traversal from the root visits every node exactly once. -/
def validAdj (adj : Adjm K) : Prop :=
  (∀ i j, adj i j ≤ 1) ∧
  (∀ i, adj i i = 1) ∧
  colSum adj 0 = 1 ∧
  (∀ j, j ≠ 0 → colSum adj j = 2) ∧
  (∀ j, (par adj)^[K] j = 0)

instance (adj : Adjm K) : Decidable (validAdj adj) := by
  unfold validAdj; infer_instance

/-- Downward bounded reachability: `reachesB adj n i j` holds iff there is a
directed path of length at most `n` from `i` to `j` in the graph
`adjacency minus diagonal`. -/
def reachesB (adj : Adjm K) : ℕ → Fin (K + 1) → Fin (K + 1) → Bool
  | 0, i, j => i == j
  | n + 1, i, j =>
      i == j || decide (∃ c, c ≠ i ∧ adj i c = 1 ∧ reachesB adj n c j = true)

/-- `hasPath adj i j`: `i = j` or there is a directed path from `i` to `j`
in the graph `adjacency minus diagonal` (arbitrary length). -/
def hasPath (adj : Adjm K) : Fin (K + 1) → Fin (K + 1) → Prop :=
  Relation.ReflTransGen (fun a c => c ≠ a ∧ adj a c = 1)

/-- `anc` is the ancestry matrix of `adj`: entry `[i][j]` is `1` iff `i`
reaches `j` downward (within the `K` steps that always suffice on a valid
tree), else `0`.  This is the property `make_ancestral_from_adj`
establishes and that `_modify_tree`'s caller maintains. -/
def isAncestryOf (anc adj : Adjm K) : Prop :=
  ∀ i j, anc i j = if reachesB adj K i j then 1 else 0

instance (anc adj : Adjm K) : Decidable (isAncestryOf anc adj) := by
  unfold isAncestryOf; infer_instance

/-! ## Python-compatible rounding

Python 3's builtin `round` uses banker's rounding (round half to even);
`_run_chain` and `sample_trees` use it for `record_every` and
`discard_first`.  The fractions involved are modelled as rationals. -/

/-- Python 3 `round` on a rational: nearest integer, ties to even. -/
def pyround (q : ℚ) : ℤ :=
  if q - ⌊q⌋ < 1 / 2 then ⌊q⌋
  else if 1 / 2 < q - ⌊q⌋ then ⌊q⌋ + 1
  else if 2 ∣ ⌊q⌋ then ⌊q⌋ else ⌊q⌋ + 1

/-! ## Chain recording (thinning) — `_run_chain`, lines 515–552 -/

/-- `record_every = round(1 / thinned_frac)` from `_run_chain`. -/
def record_every (thinned_frac : ℚ) : ℕ := (pyround (1 / thinned_frac)).toNat

/-- The retained samples of one chain, as a function of the per-iteration
current sample `samp : ℕ → S` (an oracle for the MH loop): `_run_chain`
starts with `samps = [init]` (the sample of iteration 0) and, for each
iteration `I ∈ [1, nsamples)`, appends the current sample iff
`I % record_every == 0`. -/
def run_chain_retained {S : Type _} (samp : ℕ → S) (nsamples : ℕ) (thinned_frac : ℚ) :
    List S :=
  samp 0 ::
    (((List.range' 1 (nsamples - 1)).filter
      (fun I => I % record_every thinned_frac = 0)).map samp)

/-! ## Burn-in and merging — `sample_trees`, lines 648–657 -/

/-- The merge step of `sample_trees`: drop the first
`round(burnin * trees_per_chain)` retained samples of every chain and
concatenate the remainders in chain order, separately for the adjacency,
phi and log-likelihood lists. -/
def sample_trees_merge {A B C : Type _} (results : List (List A × List B × List C))
    (burnin : ℚ) (trees_per_chain : ℕ) : List A × List B × List C :=
  let discard_first := (pyround (burnin * trees_per_chain)).toNat
  (results.foldl (fun acc r => acc ++ r.1.drop discard_first) [],
   results.foldl (fun acc r => acc ++ r.2.1.drop discard_first) [],
   results.foldl (fun acc r => acc ++ r.2.2.drop discard_first) [])

/-! ## Chain seeding — `_init_chain` line 401 and `sample_trees` lines 628–646 -/

/-- `_init_chain` seeds numpy with `seed % 2**32`. -/
def init_chain_seed (seed : ℤ) : ℤ := seed % 2 ^ 32

/-- The seed `sample_trees` passes to chain `C` (both in the parallel and in
the serial branch): `seed + C + 1`. -/
def chain_seed (seed : ℤ) (C : ℕ) : ℤ := seed + C + 1

/-- One chain's result as a deterministic function of the effective numpy
seed: `_run_chain` is a pure function of its arguments once the RNG is
seeded, and `_init_chain` reduces the passed seed modulo `2^32`.  `F`
abstracts everything downstream of the seeding. -/
def run_chain_modeled {R : Type _} (F : ℤ → R) (seed : ℤ) : R :=
  F (init_chain_seed seed)

/-- The serial branch of `sample_trees` (`parallel = 0`): run chains
`C = 0, …, nchains-1` in order, appending each result. -/
def serial_results {R : Type _} (F : ℤ → R) (nchains : ℕ) (seed : ℤ) : List R :=
  (List.range nchains).map (fun C => run_chain_modeled F (chain_seed seed C))

/-- The parallel branch of `sample_trees`: jobs are submitted for
`C = 0, …, nchains-1`; workers complete them in some arbitrary
`completion_order`; the result list is assembled by reading each future in
submission order (`[J.result() for J in jobs]`).  Each job's value depends
only on its own arguments (chains share no mutable state). -/
def parallel_results {R : Type _} (F : ℤ → R) (nchains : ℕ) (seed : ℤ)
    (completion_order : List ℕ) : List R :=
  let executed := completion_order.map
    (fun C => (C, run_chain_modeled F (chain_seed seed C)))
  (List.range nchains).filterMap (fun C => executed.lookup C)

/-! ## The log relation model — `_make_data_logmutrel`, lines 253–271

The input `mutrel.rels` is a `K × K × 5` probability array over the `K`
mutation clusters; the output keeps the same shape in log space, with
`-np.inf` modelled as `⊥ : EReal`.  Following the source:
invalid classes (cocluster, garbage) get `-inf`; valid classes get
`log(p + alpha)`; diagonal rows are overwritten to `-inf` with the
diagonal cocluster entry set to `0`; finally `log(1 + 3*alpha)` is
subtracted from the valid-class entries (a no-op `-inf - c = -inf` on the
diagonal, which the `if a = b` branch below reflects). -/

/-- The Dirichlet pseudocount `alpha = 0.001` of `_make_data_logmutrel`. -/
noncomputable def alpha : ℝ := 1 / 1000

/-- `_make_data_logmutrel` on the `rels` array (`Kc` clusters). -/
noncomputable def make_data_logmutrel {Kc : ℕ} (rels : Fin Kc → Fin Kc → Fin 5 → ℝ) :
    Fin Kc → Fin Kc → Fin 5 → EReal :=
  fun a b c =>
    if a = b then (if c = Models.cocluster then (0 : EReal) else ⊥)
    else if c = Models.cocluster ∨ c = Models.garbage then ⊥
    else ((Real.log (rels a b c + alpha) - Real.log (1 + 3 * alpha) : ℝ) : EReal)

/-- A concrete well-formed 2-cluster relation model for the C8 witness. -/
noncomputable def c8rels : Fin 2 → Fin 2 → Fin 5 → ℝ := fun a b c =>
  if a = b then (if c = Models.cocluster then 1 else 0)
  else if c = Models.A_B then 1 / 2
  else if c = Models.B_A then 1 / 4
  else if c = Models.diff_branches then 1 / 4
  else 0



/-! ## The tree mutator — `_modify_tree`, lines 134–181

The source copies both matrices, zeroes both diagonals, and then either
swaps nodes `A` and `B` (when `B` is ancestral to `A`) or moves subtree `B`
under `A`; finally the adjacency diagonal is restored to 1.  The numpy row
and column assignments are reproduced literally: rows `A`/`B` are swapped
first, and then columns `A`/`B` are overwritten with copies of the columns
taken before the row swap.  Since the source copies its arguments, the pure
functional reading below is faithful, and the inputs are trivially left
unchanged. -/

def modify_tree (adj anc : Adjm K) (A B : Fin (K + 1)) : Adjm K :=
  let adj0 := fillDiag adj 0
  let anc0 := fillDiag anc 0
  if anc0 B A ≠ 0 then
    -- swap branch
    let adjBA := adj0 B A
    let adj1 : Adjm K := fun i j => if i = B ∧ j = A ∧ adjBA ≠ 0 then 0 else adj0 i j
    let adj2 : Adjm K := fun i j => if i = A then adj1 B j else if i = B then adj1 A j else adj1 i j
    let adj3 : Adjm K := fun i j => if j = A then adj1 i B else if j = B then adj1 i A else adj2 i j
    let adj4 : Adjm K := fun i j => if i = A ∧ j = B ∧ adjBA ≠ 0 then 1 else adj3 i j
    fillDiag adj4 1
  else
    -- move branch: zero column B, then set adj[A,B] = 1
    let adj2 : Adjm K := fun i j => if j = B then (if i = A then 1 else 0) else adj0 i j
    fillDiag adj2 1

/-! ## Ancestry computation — `common.make_ancestral_from_adj`, lines 29–50

The source's `_find_desc(I, vec)` recurses through the children listed in
`vec` without an explicit bound; on a valid tree the recursion depth is at
most the tree height, so a fuel of `K + 1` always suffices and the embedding
below uses it.  The base case (`np.sum(vec) == 0`), the summation of the
children's descendant vectors, and the clipping of entries `> 1` back to 1
are reproduced directly. -/

def findDesc (adj : Adjm K) : ℕ → Fin (K + 1) → (Fin (K + 1) → ℕ) → (Fin (K + 1) → ℕ)
  | 0, _, vec => vec
  | f + 1, I, vec =>
      if (∑ i, vec i) = 0 then vec
      else fun j =>
        min 1 (vec j + ∑ c ∈ Finset.univ.filter (fun c => c ≠ I ∧ vec c = 1),
          findDesc adj f c (adj c) j)

/-- `make_ancestral_from_adj`: row `k` is `_find_desc(k, adj[k])`. -/
def make_ancestral_from_adj (adj : Adjm K) : Adjm K :=
  fun k => findDesc adj (K + 1) k (adj k)

/-! ## The deterministic tree builder — `tree_builder.make_adj`, lines 4–29

`relations` is an `N × N` relation-class matrix with `N ≥ 2`; we write
`N = Nc + 2`.  The output matrix is `np.eye(N)` with `adj[0,1] = 1`; then
for each `I = 2, …, N-1` the inner loop walks `J = I-1, …, 0` and places
`adj[J,I] = 1` at the first `J` whose relation is `B_A` (if any), skips
`diff_branches`, and raises on anything else. -/

inductive CannotBuildTreeException where
  | firstSubcloneNotChild : CannotBuildTreeException
  | unexpectedRelation : ℕ → ℕ → CannotBuildTreeException
deriving DecidableEq

/-- The inner `for J in reversed(range(I))` loop of `make_adj`, with the
explicit `I_placed` flag. -/
def rowLoop {Nc : ℕ} (rel : Fin (Nc + 2) → Fin (Nc + 2) → Fin 5) (I : Fin (Nc + 2)) :
    List (Fin (Nc + 2)) → Adjm (Nc + 1) → Bool →
    Except CannotBuildTreeException (Adjm (Nc + 1))
  | [], adj, _ => .ok adj
  | J :: rest, adj, placed =>
      if rel I J = Models.B_A then
        if placed = false then
          rowLoop rel I rest (fun i j => if i = J ∧ j = I then 1 else adj i j) true
        else rowLoop rel I rest adj placed
      else if rel I J = Models.diff_branches then rowLoop rel I rest adj placed
      else .error (.unexpectedRelation I.val J.val)

/-- The `J` indices scanned for row `I`: `reversed(range(I))`. -/
def descJs {Nc : ℕ} (I : Fin (Nc + 2)) : List (Fin (Nc + 2)) :=
  ((List.finRange (Nc + 2)).filter (fun J => decide (J < I))).reverse

/-- The outer `for I in range(2, N)` loop of `make_adj`. -/
def rowsLoop {Nc : ℕ} (rel : Fin (Nc + 2) → Fin (Nc + 2) → Fin 5) :
    List (Fin (Nc + 2)) → Adjm (Nc + 1) →
    Except CannotBuildTreeException (Adjm (Nc + 1))
  | [], adj => .ok adj
  | I :: rest, adj => do rowsLoop rel rest (← rowLoop rel I (descJs I) adj false)

/-- The starting matrix of `make_adj`: `np.eye(N)` with `adj[0,1] = 1`. -/
def initAdj {Nc : ℕ} : Adjm (Nc + 1) :=
  fun i j => if i = j then 1 else if i = 0 ∧ j = 1 then 1 else 0

/-- `tree_builder.make_adj`. -/
def make_adj {Nc : ℕ} (rel : Fin (Nc + 2) → Fin (Nc + 2) → Fin 5) :
    Except CannotBuildTreeException (Adjm (Nc + 1)) :=
  if rel 1 0 ≠ Models.B_A then .error .firstSubcloneNotChild
  else
    rowsLoop rel
      ((List.finRange (Nc + 2)).filter (fun I => decide (2 ≤ I.val)))
      initAdj

/-- The condition under which `make_adj` raises, as stated by the claim:
the relation of node 1 to node 0 is not `B_A`, or some relation `[I][J]`
with `J < I` (and `I ≥ 2`) is neither `B_A` nor `diff_branches`. -/
def raiseCond {Nc : ℕ} (rel : Fin (Nc + 2) → Fin (Nc + 2) → Fin 5) : Prop :=
  rel 1 0 ≠ Models.B_A ∨
    ∃ I J : Fin (Nc + 2), 2 ≤ I.val ∧ J < I ∧
      rel I J ≠ Models.B_A ∧ rel I J ≠ Models.diff_branches

instance {Nc : ℕ} (rel : Fin (Nc + 2) → Fin (Nc + 2) → Fin 5) :
    Decidable (raiseCond rel) := by
  unfold raiseCond; infer_instance

/-- Every node `I ≥ 2` has at least one earlier node `J < I` related as
`B_A` (i.e. marked as an ancestor of `I`), so the inner loop actually
places `I` somewhere. -/
def placeable {Nc : ℕ} (rel : Fin (Nc + 2) → Fin (Nc + 2) → Fin 5) : Prop :=
  ∀ I : Fin (Nc + 2), 2 ≤ I.val → ∃ J, J < I ∧ rel I J = Models.B_A

instance {Nc : ℕ} (rel : Fin (Nc + 2) → Fin (Nc + 2) → Fin 5) :
    Decidable (placeable rel) := by
  unfold placeable; infer_instance

/-- The complete relation assignment derived from a known tree `tadj`
(the input the claim's round-trip property talks about): `B_A` when `J` is
a proper ancestor of `I`, `A_B` when `I` is a proper ancestor of `J`,
`cocluster` on the diagonal, `diff_branches` otherwise. -/
def relFromTree (tadj : Adjm K) : Fin (K + 1) → Fin (K + 1) → Fin 5 := fun I J =>
  if I = J then Models.cocluster
  else if reachesB tadj K J I then Models.B_A
  else if reachesB tadj K I J then Models.A_B
  else Models.diff_branches

/-- Node indices are topologically sorted: every non-root node's parent has
a smaller index. -/
def toposorted (tadj : Adjm K) : Prop :=
  ∀ j : Fin (K + 1), j ≠ 0 → par tadj j < j

instance (tadj : Adjm K) : Decidable (toposorted tadj) := by
  unfold toposorted; infer_instance

/-- C7 counterexample input (`N = 3`): node 1 is a child of node 0, but
node 2 is `diff_branches` from both earlier nodes, so the inner loop never
places it and never raises. -/
def c7rel : Fin 3 → Fin 3 → Fin 5 := fun I J =>
  if I = J then Models.cocluster
  else if I.val = 1 ∧ J.val = 0 then Models.B_A
  else if J < I then Models.diff_branches
  else Models.A_B

/-- The malformed matrix `make_adj` returns on `c7rel`: node 2 has no
parent (its column sums to 1). -/
def c7adj : Adjm 2 := fun i j =>
  if i = j then 1 else if i.val = 0 ∧ j.val = 1 then 1 else 0

/-! ## Tree-implied relations and scoring — `_determine_node_rels` and
`_calc_tree_logmutrel`, lines 273–326

`_determine_node_rels` walks the tree from the root with an explicit stack
(Python `list.pop()` takes the last element; the embedding keeps the stack
top at the head, so pushing the children list `C` appends `C.reverse`).
`node_rels` starts as `diff_branches` everywhere, `cocluster` on the
diagonal and `A_B` on row 0 (columns 1..); for each popped node `P` with
children `C`, rows/columns of `C` against `P`'s recorded ancestors plus `P`
itself are set to `A_B` / `B_A` (in the source the `B_A` block is written
after the `A_B` block, so it wins on overlaps).  The `while` loop is
embedded with fuel `(K+2)^2`, enough for any valid tree (each node is
pushed once). -/

def nodeRelsLoop (adj0 : Adjm K) :
    ℕ → List (Fin (K + 1)) → (Fin (K + 1) → Fin (K + 1) → Fin 5) →
    (Fin (K + 1) → Fin (K + 1) → Fin 5)
  | 0, _, r => r
  | _ + 1, [], r => r
  | f + 1, P :: stack, r =>
      let C := (List.finRange (K + 1)).filter (fun c => decide (adj0 P c ≠ 0))
      if C = [] then nodeRelsLoop adj0 f stack r
      else
        let Canc := ((List.finRange (K + 1)).filter
          (fun i => decide (r P i = Models.B_A))) ++ [P]
        let r2 : Fin (K + 1) → Fin (K + 1) → Fin 5 := fun i j =>
          if i ∈ C ∧ j ∈ Canc then Models.B_A
          else if i ∈ Canc ∧ j ∈ C then Models.A_B
          else r i j
        nodeRelsLoop adj0 f (C.reverse ++ stack) r2

/-- `_determine_node_rels`. -/
def determine_node_rels (adj : Adjm K) : Fin (K + 1) → Fin (K + 1) → Fin 5 :=
  let adj0 := fillDiag adj 0
  let init : Fin (K + 1) → Fin (K + 1) → Fin 5 := fun i j =>
    if i = j then Models.cocluster
    else if i = 0 then Models.A_B
    else Models.diff_branches
  nodeRelsLoop adj0 ((K + 2) * (K + 2)) [0] init

/-- `_calc_tree_logmutrel`: look up the data log-relation of every cluster
pair at the class implied by the tree, then insert a zero row and column
for the root.  The `data_logmutrel` entries this reads (valid classes off
the diagonal, `cocluster` on it) are finite, so they are modelled as `ℝ`. -/
noncomputable def calcTreeLogmutrel (adj : Adjm K)
    (dlm : Fin K → Fin K → Fin 5 → ℝ) : Fin (K + 1) → Fin (K + 1) → ℝ :=
  fun i j =>
    if hi : i = 0 then 0
    else if hj : j = 0 then 0
    else dlm (i.pred hi) (j.pred hj) (determine_node_rels adj i j)

/-- `np.sum(np.triu(M))`: the sum of the upper triangle including the
diagonal. -/
noncomputable def triuSum (M : Fin (K + 1) → Fin (K + 1) → ℝ) : ℝ :=
  ∑ i, ∑ j, if i ≤ j then M i j else 0

/-! ## Proposal weights — lines 226–251, 328–368, 427–448

`util.softmax` and `scipy.special.logsumexp` are code of this repository /
its dependencies that is not under `src/`. -/

/-- Modelled from the spec: `util.softmax` (module `util` is not under
`src/`) — "converts the resulting score vector into a softmax
distribution". -/
noncomputable def softmax {n : ℕ} (v : Fin n → ℝ) : Fin n → ℝ :=
  fun i => Real.exp (v i) / ∑ j, Real.exp (v j)

/-- Modelled from the spec: `scipy.special.logsumexp` — the log-sum-exp
aggregation used for the per-node disagreement score. -/
noncomputable def logsumexp {n : ℕ} (v : Fin n → ℝ) : ℝ :=
  Real.log (∑ j, Real.exp (v j))

/-- `np.exp` on an extended real (`np.exp(-np.inf) = 0`).  `⊤` never occurs
in this development. -/
noncomputable def expE (x : EReal) : ℝ :=
  if x = ⊥ then 0 else if x = ⊤ then 0 else Real.exp x.toReal

/-- Modelled from the spec: `util.softmax` on a log-weight vector that may
contain `-np.inf` entries. -/
noncomputable def softmaxE {n : ℕ} (v : Fin n → EReal) : Fin n → ℝ :=
  fun i => expE (v i) / ∑ j, expE (v j)

/-- `_make_W_nodes_uniform`: ones, root masked to 0, normalized. -/
noncomputable def make_W_nodes_uniform (adj : Adjm K) : Fin (K + 1) → ℝ :=
  let w : Fin (K + 1) → ℝ := fun i => if i = 0 then 0 else 1
  fun i => w i / ∑ j, w j

/-- `_make_W_nodes_mutrel`: per-pair error `1 - exp(tree_logmutrel)`
clipped to `1e-10`, per-node log-sum-exp aggregation, softmax over the
non-root tail, floor at `1e-10`, renormalize. -/
noncomputable def make_W_nodes_mutrel (adj : Adjm K)
    (dlm : Fin K → Fin K → Fin 5 → ℝ) : Fin (K + 1) → ℝ :=
  let tlm := calcTreeLogmutrel adj dlm
  let pair_error : Fin (K + 1) → Fin (K + 1) → ℝ :=
    fun i j => max 1e-10 (1 - Real.exp (tlm i j))
  let node_error : Fin (K + 1) → ℝ :=
    fun i => logsumexp (fun j => Real.log (pair_error i j))
  let sm := softmax (fun c : Fin K => node_error c.succ)
  let w : Fin (K + 1) → ℝ := fun i => if h : i = 0 then 0 else max 1e-10 (sm (i.pred h))
  fun i => w i / ∑ j, w j

/-- The pre-normalization uniform destination weights of
`_make_W_dests_uniform`: ones with the subtree head and its current parent
masked to 0. -/
noncomputable def make_W_dests_uniform_raw (subtree_head curr_parent : Fin (K + 1))
    (adj : Adjm K) : Fin (K + 1) → ℝ :=
  fun i => if i = subtree_head ∨ i = curr_parent then 0 else 1

/-- `_make_W_dests_uniform`: the masked ones vector, normalized. -/
noncomputable def make_W_dests_uniform (subtree_head curr_parent : Fin (K + 1))
    (adj : Adjm K) : Fin (K + 1) → ℝ :=
  fun i => make_W_dests_uniform_raw subtree_head curr_parent adj i /
    ∑ j, make_W_dests_uniform_raw subtree_head curr_parent adj j

set_option linter.unusedVariables false in
/-- `_make_W_dests_mutrel`, lines 328–354, reproduced literally: for every
candidate destination outside `{curr_parent, subtree_head}` the hypothetical
tree `new_adj = _modify_tree(adj, anc, dest, subtree_head)` is built — and
then the log-weight is computed as
`np.sum(np.triu(_calc_tree_logmutrel(adj, data_logmutrel)))`, i.e. from the
*current* tree `adj`, leaving `new_adj` unused.  Masked destinations hold
`-np.inf`; the vector is softmaxed, floored at `1e-10`, re-masked and
renormalized. -/
noncomputable def make_W_dests_mutrel (subtree_head curr_parent : Fin (K + 1))
    (adj anc : Adjm K) (depth_frac : Fin (K + 1) → ℝ)
    (dlm : Fin K → Fin K → Fin 5 → ℝ) : Fin (K + 1) → ℝ :=
  let logweights : Fin (K + 1) → EReal := fun dest =>
    if dest = curr_parent ∨ dest = subtree_head then ⊥
    else
      let new_adj := modify_tree adj anc dest subtree_head
      ((triuSum (calcTreeLogmutrel adj dlm) : ℝ) : EReal)
  let weights := softmaxE logweights
  let weights2 : Fin (K + 1) → ℝ := fun d => max 1e-10 (weights d)
  let weights3 : Fin (K + 1) → ℝ :=
    fun d => if d = curr_parent ∨ d = subtree_head then 0 else weights2 d
  fun d => weights3 d / ∑ j, weights3 j

/-- `_combine_arrays` with the combiner `[[gamma, 1 - gamma]]` built in
`_generate_new_sample`: returns the stacked pair and the mixture. -/
noncomputable def combine_arrays {n : ℕ} (arr1 arr2 : Fin n → ℝ) (gamma : ℝ) :
    (Fin 2 → Fin n → ℝ) × (Fin n → ℝ) :=
  (fun m => if m = 0 then arr1 else arr2,
   fun i => gamma * arr1 i + (1 - gamma) * arr2 i)

/-- `_make_W_nodes_combined`. -/
noncomputable def make_W_nodes_combined (adj : Adjm K)
    (dlm : Fin K → Fin K → Fin 5 → ℝ) (gamma : ℝ) :
    (Fin 2 → Fin (K + 1) → ℝ) × (Fin (K + 1) → ℝ) :=
  combine_arrays (make_W_nodes_uniform adj) (make_W_nodes_mutrel adj dlm) gamma

/-- `_make_W_dests_combined`. -/
noncomputable def make_W_dests_combined (subtree_head curr_parent : Fin (K + 1))
    (adj anc : Adjm K) (depth_frac : Fin (K + 1) → ℝ)
    (dlm : Fin K → Fin K → Fin 5 → ℝ) (gamma : ℝ) :
    (Fin 2 → Fin (K + 1) → ℝ) × (Fin (K + 1) → ℝ) :=
  combine_arrays (make_W_dests_uniform subtree_head curr_parent adj)
    (make_W_dests_mutrel subtree_head curr_parent adj anc depth_frac dlm) gamma

/-! ### Concrete inputs for the C1 code-bug theorem -/

/-- The current tree for C1: parents `1 ← 0`, `2 ← 1`, `3 ← 1`. -/
def c1adj : Adjm 3 := fun i j =>
  if i = j then 1
  else if (i.val = 0 ∧ j.val = 1) ∨ (i.val = 1 ∧ j.val = 2) ∨ (i.val = 1 ∧ j.val = 3)
  then 1 else 0

/-- The ancestry matrix of `c1adj`. -/
def c1anc : Adjm 3 := fun i j =>
  if i = j then 1
  else if (i.val = 0) ∨ (i.val = 1 ∧ j.val = 2) ∨ (i.val = 1 ∧ j.val = 3)
  then 1 else 0

/-- A concrete log relation model for C1: per-class scores
`cocluster ↦ 0`, `A_B ↦ -2`, `B_A ↦ -3`, `diff_branches ↦ -1`. -/
noncomputable def c1dlm : Fin 3 → Fin 3 → Fin 5 → ℝ := fun _ _ c =>
  if c = Models.cocluster then 0
  else if c = Models.A_B then -2
  else if c = Models.B_A then -3
  else if c = Models.diff_branches then -1
  else 0

/-- The depth-fraction vector of `c1adj` (unused by
`_make_W_dests_mutrel`, but part of its signature). -/
noncomputable def c1depth : Fin 4 → ℝ := fun i =>
  if i.val = 0 then 0 else if i.val = 1 then 1 / 2 else 1

/-! ## Tree samples and the Metropolis–Hastings step — lines 16–22,
183–202, 214–224, 450–497, 537–553

The external frequency fitter and the likelihood computation are oracle
parameters (`calc_phi`, `calc_llh`), and the stochastic draws of the
subtree head `B`, the destination `A` and the uniform variate `U` are
inputs.  (The sampled `mode` only selects which stacked row the
categorical draws use; with `B` and `A` given, it does not influence the
returned values, because the proposal probabilities are computed from the
combined mixture vectors.) -/

/-- The `TreeSample` namedtuple. -/
structure TreeSample (K : ℕ) (Phi : Type _) where
  adj : Adjm K
  anc : Adjm K
  depth_frac : Fin (K + 1) → ℝ
  phi : Phi
  llh_phi : ℝ

/-- `_find_parent`: copy column `node`, zero its own entry, return the
first nonzero index (the source asserts there is exactly one). -/
def find_parent (node : Fin (K + 1)) (adj : Adjm K) : Fin (K + 1) :=
  match (List.finRange (K + 1)).filter
      (fun i => decide (i ≠ node) && decide (adj i node ≠ 0)) with
  | p :: _ => p
  | [] => node

/-- The stack loop of `_calc_depth_frac` (fuel as for `nodeRelsLoop`;
Python pops from the end, the embedding keeps the top at the head). -/
def depthLoop (Z : Adjm K) :
    ℕ → List (Fin (K + 1)) → (Fin (K + 1) → ℕ) → (Fin (K + 1) → ℕ)
  | 0, _, depth => depth
  | _ + 1, [], depth => depth
  | f + 1, P :: stack, depth =>
      let C := (List.finRange (K + 1)).filter (fun c => decide (Z P c ≠ 0))
      if C = [] then depthLoop Z f stack depth
      else depthLoop Z f (C.reverse ++ stack)
        (fun j => if j ∈ C then depth P + 1 else depth j)

/-- `_calc_depth_frac`: zero the diagonal, BFS/DFS depths from the root,
divide by the maximum depth. -/
noncomputable def calc_depth_frac (adj : Adjm K) : Fin (K + 1) → ℝ :=
  let Z := fillDiag adj 0
  let depth := depthLoop Z ((K + 2) * (K + 2)) [0] (fun _ => 0)
  fun j => (depth j : ℝ) / ((Finset.univ.sup depth : ℕ) : ℝ)

/-- `_generate_new_sample`, given the sampled subtree head `B` and
destination `A`: build both old-tree weight pairs, the candidate sample,
both new-tree weight pairs, and the forward/reverse log proposal
probabilities `log W_nodes[B] + log W_dests[A]` resp.
`log W_nodes_new[B] + log W_dests_new[old_parent]`. -/
noncomputable def generate_new_sample {Phi : Type _} (old : TreeSample K Phi)
    (dlm : Fin K → Fin K → Fin 5 → ℝ) (gamma : ℝ) (B A : Fin (K + 1))
    (calc_phi : Adjm K → Phi) (calc_llh : Adjm K → Phi → ℝ) :
    TreeSample K Phi × ℝ × ℝ :=
  let W_nodes_old := make_W_nodes_combined old.adj dlm gamma
  let old_parent := find_parent B old.adj
  let W_dests_old := make_W_dests_combined B old_parent old.adj old.anc
    old.depth_frac dlm gamma
  let new_adj := modify_tree old.adj old.anc A B
  let new_parent := find_parent B new_adj
  let new_anc := make_ancestral_from_adj new_adj
  let new_depth_frac := calc_depth_frac new_adj
  let new_phi := calc_phi new_adj
  let new_samp : TreeSample K Phi :=
    ⟨new_adj, new_anc, new_depth_frac, new_phi, calc_llh new_adj new_phi⟩
  let W_nodes_new := make_W_nodes_combined new_adj dlm gamma
  let W_dests_new := make_W_dests_combined B new_parent new_adj new_anc
    new_depth_frac dlm gamma
  let log_p_new_given_old := Real.log (W_nodes_old.2 B) + Real.log (W_dests_old.2 A)
  let log_p_old_given_new := Real.log (W_nodes_new.2 B) +
    Real.log (W_dests_new.2 old_parent)
  (new_samp, log_p_new_given_old, log_p_old_given_new)

/-- One iteration of the `_run_chain` loop (lines 537–553): propose,
compute `log_p_transition`, accept iff it is `≥ log U`, keep the old
sample otherwise. -/
noncomputable def run_chain_step {Phi : Type _} (old : TreeSample K Phi)
    (dlm : Fin K → Fin K → Fin 5 → ℝ) (gamma : ℝ) (B A : Fin (K + 1))
    (calc_phi : Adjm K → Phi) (calc_llh : Adjm K → Phi → ℝ) (U : ℝ) :
    TreeSample K Phi × Bool :=
  let r := generate_new_sample old dlm gamma B A calc_phi calc_llh
  let new_samp := r.1
  let log_p_transition := (new_samp.llh_phi - old.llh_phi) + (r.2.2 - r.2.1)
  let accept : Bool := decide (log_p_transition ≥ Real.log U)
  (if accept then new_samp else old, accept)

/-- The spec-side forward proposal probability:
`P(select B) * P(select destination A | B)` under the current tree's
mixture weights. -/
noncomputable def forward_proposal_prob {Phi : Type _} (old : TreeSample K Phi)
    (dlm : Fin K → Fin K → Fin 5 → ℝ) (gamma : ℝ) (B A : Fin (K + 1)) : ℝ :=
  (make_W_nodes_combined old.adj dlm gamma).2 B *
    (make_W_dests_combined B (find_parent B old.adj) old.adj old.anc
      old.depth_frac dlm gamma).2 A

/-- The spec-side reverse proposal probability:
`P(select B) * P(select B's former parent | B)` under the candidate tree's
mixture weights. -/
noncomputable def reverse_proposal_prob {Phi : Type _} (old : TreeSample K Phi)
    (dlm : Fin K → Fin K → Fin 5 → ℝ) (gamma : ℝ) (B A : Fin (K + 1))
    (calc_phi : Adjm K → Phi) (calc_llh : Adjm K → Phi → ℝ) : ℝ :=
  let cand := (generate_new_sample old dlm gamma B A calc_phi calc_llh).1
  (make_W_nodes_combined cand.adj dlm gamma).2 B *
    (make_W_dests_combined B (find_parent B cand.adj) cand.adj cand.anc
      cand.depth_frac dlm gamma).2 (find_parent B old.adj)

/-! ### Concrete inputs for the C2/C3/C5 witnesses -/

/-- The chain tree `0 → 1 → 2`. -/
def c2adj : Adjm 2 := fun i j =>
  if i = j then 1
  else if (i.val = 0 ∧ j.val = 1) ∨ (i.val = 1 ∧ j.val = 2) then 1 else 0

/-- The ancestry matrix of `c2adj` (for a chain, `anc i j = 1` iff
`i ≤ j`). -/
def c2anc : Adjm 2 := fun i j => if i ≤ j then 1 else 0



/-! ### Verification-side notions used by the tree theory -/

/-- `i` is an ancestor of `j` or equal to it: some number of parent steps
from `j` reaches `i`. -/
def ancP (adj : Adjm K) (i j : Fin (K + 1)) : Prop :=
  ∃ n, (par adj)^[n] j = i

/-- The number of parent steps from `j` to the root (defined on valid
trees). -/
def rootDist {adj : Adjm K} (hv : validAdj adj) (j : Fin (K + 1)) : ℕ :=
  Nat.find (⟨K, hv.2.2.2.2 j⟩ : ∃ n, (par adj)^[n] j = 0)



/-- The index transposition exchanging `A` and `B`, used to describe the
swap branch of `_modify_tree` as a relabeling. -/
def swapIdx (A B i : Fin (K + 1)) : Fin (K + 1) :=
  if i = A then B else if i = B then A else i



instance {E A : Type _} [DecidableEq E] [DecidableEq A] : DecidableEq (Except E A)
  | .error e, .error f =>
      if h : e = f then .isTrue (by rw [h]) else .isFalse (fun hh => h (by injection hh))
  | .error _, .ok _ => .isFalse (fun hh => Except.noConfusion hh)
  | .ok _, .error _ => .isFalse (fun hh => Except.noConfusion hh)
  | .ok x, .ok y =>
      if h : x = y then .isTrue (by rw [h]) else .isFalse (fun hh => h (by injection hh))


/-! # Theorems -/

/-! ### Helper lemmas for counting and merging -/

lemma length_filter_mod (k : ℕ) (hk : 0 < k) :
    ∀ m : ℕ, ((List.range' 1 m).filter (fun I => I % k = 0)).length = m / k := by
  intro m
  induction m with
  | zero => simp
  | succ m ih =>
      have hconc : List.range' 1 (m + 1) = List.range' 1 m ++ [1 + m] := by
        simpa using List.range'_1_concat 1 m
      rw [hconc, List.filter_append, List.length_append, ih]
      by_cases h : (1 + m) % k = 0
      · have hdvd : k ∣ m + 1 := by
          exact Nat.dvd_of_mod_eq_zero (by rwa [Nat.add_comm] at h)
        rw [Nat.succ_div, if_pos hdvd]
        simp [List.filter, h]
      · have hdvd : ¬ k ∣ m + 1 := by
          intro hc
          exact h (by rw [Nat.add_comm]; exact Nat.mod_eq_zero_of_dvd hc)
        rw [Nat.succ_div, if_neg hdvd]
        simp [List.filter, h]

lemma record_every_pos {f : ℚ} (h0 : 0 < f) (h1 : f ≤ 1) :
    0 < record_every f := by
  have hge : (1 : ℚ) ≤ 1 / f := by
    rw [le_div_iff h0]; simpa using h1
  have hfl : (1 : ℤ) ≤ ⌊(1 / f : ℚ)⌋ := by
    exact_mod_cast Int.le_floor.mpr (by exact_mod_cast hge)
  have : (1 : ℤ) ≤ pyround (1 / f) := by
    unfold pyround
    split_ifs <;> omega
  unfold record_every
  omega

/-- C4 helper: the length of the retained-samples list. -/
lemma run_chain_retained_length {S : Type _} (samp : ℕ → S) (N : ℕ) (f : ℚ)
    (h0 : 0 < f) (h1 : f ≤ 1) :
    (run_chain_retained samp N f).length = 1 + (N - 1) / record_every f := by
  unfold run_chain_retained
  rw [List.length_cons, List.length_map,
    length_filter_mod _ (record_every_pos h0 h1)]
  omega

/-- C4: the chain retains the initialization sample and thereafter the
current sample at every iteration index divisible by
`round(1/thinned_frac)`, so the number of retained samples is exactly
`1 + floor((N−1) / round(1/thinned_frac))`; in particular `N = 3000` with
`thinned_frac = 0.3` yields exactly 1000 retained samples. -/
theorem c4_thinning_retention_count {S : Type _} (samp : ℕ → S) (N : ℕ) (f : ℚ)
    (hN : 0 < N) (h0 : 0 < f) (h1 : f ≤ 1) :
    (run_chain_retained samp N f).length = 1 + (N - 1) / record_every f ∧
    (run_chain_retained samp N f).head? = some (samp 0) ∧
    (run_chain_retained samp 3000 (3 / 10)).length = 1000 := by
  refine ⟨run_chain_retained_length samp N f h0 h1, rfl, ?_⟩
  have hre : record_every (3 / 10 : ℚ) = 3 := by
    have hq : (1 : ℚ) / (3 / 10) = 10 / 3 := by norm_num
    have hfloor : ⌊(10 / 3 : ℚ)⌋ = 3 := by
      rw [Int.floor_eq_iff] <;> norm_num
    unfold record_every pyround
    rw [hq, hfloor]
    norm_num
    rfl
  rw [run_chain_retained_length samp 3000 (3 / 10) (by norm_num) (by norm_num), hre]

theorem c4_witness :
    (0 < 3000 ∧ (0 : ℚ) < 3 / 10 ∧ (3 / 10 : ℚ) ≤ 1) ∧
    ((run_chain_retained (fun I => I) 3000 (3 / 10)).length =
        1 + (3000 - 1) / record_every (3 / 10) ∧
      (run_chain_retained (fun I => I) 3000 (3 / 10)).head? = some 0 ∧
      (run_chain_retained (fun I => I) 3000 (3 / 10)).length = 1000) :=
  ⟨⟨by norm_num, by norm_num, by norm_num⟩,
    c4_thinning_retention_count (fun I => I) 3000 (3 / 10)
      (by norm_num) (by norm_num) (by norm_num)⟩

/-! ### C6: burn-in and merge -/

lemma foldl_append_drop_length {A : Type _} (results : List (List A)) (d : ℕ) :
    ∀ init : List A,
      (results.foldl (fun acc r => acc ++ r.drop d) init).length =
        init.length + (results.map (fun r => r.length - d)).sum := by
  induction results with
  | nil => intro init; simp
  | cons r rest ih =>
      intro init
      simp only [List.foldl_cons, List.map_cons, List.sum_cons]
      rw [ih]
      simp [List.length_append]
      omega

lemma sum_map_const_of_all_eq {A : Type _} (l : List A) (c : ℕ) (g : A → ℕ)
    (h : ∀ x ∈ l, g x = c) : (l.map g).sum = l.length * c := by
  induction l with
  | nil => simp
  | cons x rest ih =>
      simp only [List.map_cons, List.sum_cons, List.length_cons]
      rw [h x (by simp), ih (fun y hy => h y (by simp [hy]))]
      ring

/-- C6: each chain's leading `round(burnin * trees_per_chain)` retained
samples are discarded, the remainders are concatenated in chain order, and
the three merged lists have equal lengths; with `nchains = 4`,
`trees_per_chain = 1000`, `burnin = 0.1` and thinning fraction `1` the
merged output length is `4 * (1000 - round(0.1 * 1000)) = 3600`. -/
theorem c6_burnin_merge_lengths {A B C : Type _}
    (results : List (List A × List B × List C)) (burnin : ℚ) (tpc L : ℕ)
    (hL : ∀ r ∈ results, r.1.length = L ∧ r.2.1.length = L ∧ r.2.2.length = L) :
    ((sample_trees_merge results burnin tpc).1.length =
        results.length * (L - (pyround (burnin * tpc)).toNat) ∧
      (sample_trees_merge results burnin tpc).2.1.length =
        results.length * (L - (pyround (burnin * tpc)).toNat) ∧
      (sample_trees_merge results burnin tpc).2.2.length =
        results.length * (L - (pyround (burnin * tpc)).toNat)) ∧
    (results.length = 4 → burnin = 1 / 10 → tpc = 1000 →
      L = (run_chain_retained (fun I => I) 1000 1).length →
      (sample_trees_merge results burnin tpc).1.length = 3600) := by
  have hmain :
      (sample_trees_merge results burnin tpc).1.length =
          results.length * (L - (pyround (burnin * tpc)).toNat) ∧
        (sample_trees_merge results burnin tpc).2.1.length =
          results.length * (L - (pyround (burnin * tpc)).toNat) ∧
        (sample_trees_merge results burnin tpc).2.2.length =
          results.length * (L - (pyround (burnin * tpc)).toNat) := by
    unfold sample_trees_merge
    dsimp only
    refine ⟨?_, ?_, ?_⟩
    · rw [show (results.foldl (fun acc r => acc ++ r.1.drop (pyround (burnin * tpc)).toNat) []) =
          ((results.map (fun r => r.1)).foldl
            (fun acc l => acc ++ l.drop (pyround (burnin * tpc)).toNat) []) by
          rw [List.foldl_map]]
      rw [foldl_append_drop_length]
      simp only [List.length_nil, Nat.zero_add, List.map_map]
      rw [sum_map_const_of_all_eq _ (L - (pyround (burnin * tpc)).toNat)]
      intro x hx
      simp only [Function.comp_apply]
      rw [(hL x hx).1]
    · rw [show (results.foldl (fun acc r => acc ++ r.2.1.drop (pyround (burnin * tpc)).toNat) []) =
          ((results.map (fun r => r.2.1)).foldl
            (fun acc l => acc ++ l.drop (pyround (burnin * tpc)).toNat) []) by
          rw [List.foldl_map]]
      rw [foldl_append_drop_length]
      simp only [List.length_nil, Nat.zero_add, List.map_map]
      rw [sum_map_const_of_all_eq _ (L - (pyround (burnin * tpc)).toNat)]
      intro x hx
      simp only [Function.comp_apply]
      rw [(hL x hx).2.1]
    · rw [show (results.foldl (fun acc r => acc ++ r.2.2.drop (pyround (burnin * tpc)).toNat) []) =
          ((results.map (fun r => r.2.2)).foldl
            (fun acc l => acc ++ l.drop (pyround (burnin * tpc)).toNat) []) by
          rw [List.foldl_map]]
      rw [foldl_append_drop_length]
      simp only [List.length_nil, Nat.zero_add, List.map_map]
      rw [sum_map_const_of_all_eq _ (L - (pyround (burnin * tpc)).toNat)]
      intro x hx
      simp only [Function.comp_apply]
      rw [(hL x hx).2.2]
  refine ⟨hmain, ?_⟩
  intro hn hb ht hLval
  have hL1000 : L = 1000 := by
    rw [hLval, run_chain_retained_length _ 1000 1 (by norm_num) (by norm_num)]
    have : record_every (1 : ℚ) = 1 := by
      unfold record_every pyround
      norm_num
    rw [this]
  have hdc : (pyround (burnin * tpc)).toNat = 100 := by
    rw [hb, ht]
    have : ((1 : ℚ) / 10) * (1000 : ℕ) = 100 := by norm_num
    rw [this]
    have hfl : ⌊(100 : ℚ)⌋ = 100 := by norm_num
    unfold pyround
    rw [hfl]
    norm_num
    rfl
  rw [hmain.1, hn, hL1000, hdc]

theorem c6_witness :
    (∀ r ∈ List.replicate 4
        (List.replicate 1000 (0 : ℕ), List.replicate 1000 (0 : ℕ),
          List.replicate 1000 (0 : ℕ)),
      r.1.length = 1000 ∧ r.2.1.length = 1000 ∧ r.2.2.length = 1000) ∧
    ((sample_trees_merge
          (List.replicate 4
            (List.replicate 1000 (0 : ℕ), List.replicate 1000 (0 : ℕ),
              List.replicate 1000 (0 : ℕ))) (1 / 10) 1000).1.length =
        (List.replicate 4
            (List.replicate 1000 (0 : ℕ), List.replicate 1000 (0 : ℕ),
              List.replicate 1000 (0 : ℕ))).length *
          (1000 - (pyround ((1 / 10) * (1000 : ℕ))).toNat) ∧
      (sample_trees_merge
          (List.replicate 4
            (List.replicate 1000 (0 : ℕ), List.replicate 1000 (0 : ℕ),
              List.replicate 1000 (0 : ℕ))) (1 / 10) 1000).2.1.length =
        (List.replicate 4
            (List.replicate 1000 (0 : ℕ), List.replicate 1000 (0 : ℕ),
              List.replicate 1000 (0 : ℕ))).length *
          (1000 - (pyround ((1 / 10) * (1000 : ℕ))).toNat) ∧
      (sample_trees_merge
          (List.replicate 4
            (List.replicate 1000 (0 : ℕ), List.replicate 1000 (0 : ℕ),
              List.replicate 1000 (0 : ℕ))) (1 / 10) 1000).2.2.length =
        (List.replicate 4
            (List.replicate 1000 (0 : ℕ), List.replicate 1000 (0 : ℕ),
              List.replicate 1000 (0 : ℕ))).length *
          (1000 - (pyround ((1 / 10) * (1000 : ℕ))).toNat)) ∧
    ((List.replicate 4
          (List.replicate 1000 (0 : ℕ), List.replicate 1000 (0 : ℕ),
            List.replicate 1000 (0 : ℕ))).length = 4 →
      (1 / 10 : ℚ) = 1 / 10 → (1000 : ℕ) = 1000 →
      (1000 : ℕ) = (run_chain_retained (fun I => I) 1000 1).length →
      (sample_trees_merge
          (List.replicate 4
            (List.replicate 1000 (0 : ℕ), List.replicate 1000 (0 : ℕ),
              List.replicate 1000 (0 : ℕ))) (1 / 10) 1000).1.length = 3600) := by
  have h : ∀ r ∈ List.replicate 4
      (List.replicate 1000 (0 : ℕ), List.replicate 1000 (0 : ℕ),
        List.replicate 1000 (0 : ℕ)),
      r.1.length = 1000 ∧ r.2.1.length = 1000 ∧ r.2.2.length = 1000 := by
    intro r hr
    rw [List.eq_of_mem_replicate hr]
    refine ⟨?_, ?_, ?_⟩ <;> rw [List.length_replicate]
  exact ⟨h, c6_burnin_merge_lengths _ (1 / 10) 1000 1000 h⟩

/-! ### C9: per-chain seeding is schedule-independent -/

lemma lookup_map_self {R : Type _} (G : ℕ → R) (C : ℕ) :
    ∀ l : List ℕ, C ∈ l → (l.map (fun c => (c, G c))).lookup C = some (G C) := by
  intro l
  induction l with
  | nil => intro h; cases h
  | cons a rest ih =>
      intro h
      simp only [List.map_cons, List.lookup_cons]
      by_cases hc : C = a
      · subst hc; simp
      · have : (C == a) = false := by simp [hc]
        rw [this]
        exact ih (by
          rcases List.mem_cons.mp h with h1 | h2
          · exact absurd h1 hc
          · exact h2)

lemma filterMap_eq_map_of_some {A R : Type _} (Fm : A → Option R) (G : A → R) :
    ∀ l : List A, (∀ c ∈ l, Fm c = some (G c)) → l.filterMap Fm = l.map G := by
  intro l
  induction l with
  | nil => intro _; rfl
  | cons a rest ih =>
      intro h
      rw [List.filterMap_cons, h a (by simp), List.map_cons,
        ih (fun c hc => h c (by simp [hc]))]

/-- C9: chain `C` is always seeded with `(base seed + C + 1) mod 2^32`,
independently of the parallelism degree and of the order in which workers
complete; consequently the per-chain result lists are identical between the
serial branch and the parallel branch under any completion order. -/
theorem c9_seed_determinism {R : Type _} (F : ℤ → R) (nchains : ℕ) (seed : ℤ)
    (completion_order : List ℕ)
    (hall : ∀ C, C < nchains → C ∈ completion_order) :
    parallel_results F nchains seed completion_order =
      serial_results F nchains seed ∧
    (∀ C : ℕ, run_chain_modeled F (chain_seed seed C) =
      F ((seed + C + 1) % 2 ^ 32)) := by
  constructor
  · unfold parallel_results serial_results
    apply filterMap_eq_map_of_some
    intro C hC
    exact lookup_map_self _ C _ (hall C (List.mem_range.mp hC))
  · intro C
    rfl

theorem c9_witness :
    (∀ C, C < 3 → C ∈ [2, 0, 1]) ∧
    (parallel_results (fun s => s) 3 7 [2, 0, 1] =
        serial_results (fun s => s) 3 7 ∧
      (∀ C : ℕ, run_chain_modeled (fun s => s) (chain_seed 7 C) =
        (7 + C + 1) % 2 ^ 32)) :=
  ⟨by decide, c9_seed_determinism (fun s => s) 3 7 [2, 0, 1] (by decide)⟩

/-- C8: the derived log relation model has the same shape, assigns `-∞` to
the garbage and cocluster classes of every off-diagonal pair (and cocluster
log-probability `0` on the diagonal), assigns
`log((p + alpha) / (1 + 3*alpha))` to each valid class, and for every
off-diagonal pair the three valid classes sum to `1` in probability
space (given a well-formed input model, whose valid-class probabilities
are nonnegative and sum to 1 off the diagonal — the source asserts
exactly this via `logsumexp(logrels, axis=2) == 0`). -/
theorem c8_logmutrel_smoothing {Kc : ℕ} (rels : Fin Kc → Fin Kc → Fin 5 → ℝ)
    (hnn : ∀ a b c, 0 ≤ rels a b c)
    (hsum : ∀ a b, a ≠ b →
      rels a b Models.A_B + rels a b Models.B_A + rels a b Models.diff_branches = 1) :
    (∀ a, make_data_logmutrel rels a a Models.cocluster = 0 ∧
      ∀ c, c ≠ Models.cocluster → make_data_logmutrel rels a a c = ⊥) ∧
    (∀ a b, a ≠ b →
      make_data_logmutrel rels a b Models.garbage = ⊥ ∧
      make_data_logmutrel rels a b Models.cocluster = ⊥ ∧
      (∀ c, c = Models.A_B ∨ c = Models.B_A ∨ c = Models.diff_branches →
        make_data_logmutrel rels a b c =
          ((Real.log ((rels a b c + alpha) / (1 + 3 * alpha)) : ℝ) : EReal)) ∧
      (rels a b Models.A_B + alpha) / (1 + 3 * alpha) +
        (rels a b Models.B_A + alpha) / (1 + 3 * alpha) +
        (rels a b Models.diff_branches + alpha) / (1 + 3 * alpha) = 1 ∧
      (∀ c, c = Models.A_B ∨ c = Models.B_A ∨ c = Models.diff_branches →
        Real.exp (make_data_logmutrel rels a b c).toReal =
          (rels a b c + alpha) / (1 + 3 * alpha))) := by
  have halpha : (0 : ℝ) < 1 + 3 * alpha := by unfold alpha; norm_num
  have hvalid : ∀ a b (c : Fin 5), a ≠ b →
      (c = Models.A_B ∨ c = Models.B_A ∨ c = Models.diff_branches) →
      make_data_logmutrel rels a b c =
        ((Real.log ((rels a b c + alpha) / (1 + 3 * alpha)) : ℝ) : EReal) := by
    intro a b c hab hc
    have hpos : (0 : ℝ) < rels a b c + alpha := by
      have := hnn a b c
      unfold alpha
      linarith
    have hne : ¬ (c = Models.cocluster ∨ c = Models.garbage) := by
      rcases hc with h | h | h <;> subst h <;> decide
    unfold make_data_logmutrel
    rw [if_neg hab, if_neg hne]
    rw [Real.log_div (ne_of_gt hpos) (ne_of_gt halpha)]
  refine ⟨?_, ?_⟩
  · intro a
    constructor
    · unfold make_data_logmutrel
      rw [if_pos rfl, if_pos rfl]
    · intro c hc
      unfold make_data_logmutrel
      rw [if_pos rfl, if_neg hc]
  · intro a b hab
    have hexp : ∀ (c : Fin 5),
        (c = Models.A_B ∨ c = Models.B_A ∨ c = Models.diff_branches) →
        Real.exp (make_data_logmutrel rels a b c).toReal =
          (rels a b c + alpha) / (1 + 3 * alpha) := by
      intro c hc
      rw [hvalid a b c hab hc]
      have hpos : (0 : ℝ) < (rels a b c + alpha) / (1 + 3 * alpha) := by
        apply div_pos _ halpha
        have := hnn a b c
        unfold alpha
        linarith
      rw [EReal.toReal_coe, Real.exp_log hpos]
    refine ⟨?_, ?_, fun c hc => hvalid a b c hab hc, ?_, hexp⟩
    · unfold make_data_logmutrel
      rw [if_neg hab, if_pos (by right; rfl)]
    · unfold make_data_logmutrel
      rw [if_neg hab, if_pos (by left; rfl)]
    · rw [div_add_div_same, div_add_div_same, div_eq_one_iff_eq (ne_of_gt halpha)]
      linear_combination hsum a b hab

theorem c8_witness :
    ((∀ a b c, 0 ≤ c8rels a b c) ∧
      (∀ a b : Fin 2, a ≠ b →
        c8rels a b Models.A_B + c8rels a b Models.B_A +
          c8rels a b Models.diff_branches = 1)) ∧
    ((∀ a, make_data_logmutrel c8rels a a Models.cocluster = 0 ∧
      ∀ c, c ≠ Models.cocluster → make_data_logmutrel c8rels a a c = ⊥) ∧
    (∀ a b, a ≠ b →
      make_data_logmutrel c8rels a b Models.garbage = ⊥ ∧
      make_data_logmutrel c8rels a b Models.cocluster = ⊥ ∧
      (∀ c, c = Models.A_B ∨ c = Models.B_A ∨ c = Models.diff_branches →
        make_data_logmutrel c8rels a b c =
          ((Real.log ((c8rels a b c + alpha) / (1 + 3 * alpha)) : ℝ) : EReal)) ∧
      (c8rels a b Models.A_B + alpha) / (1 + 3 * alpha) +
        (c8rels a b Models.B_A + alpha) / (1 + 3 * alpha) +
        (c8rels a b Models.diff_branches + alpha) / (1 + 3 * alpha) = 1 ∧
      (∀ c, c = Models.A_B ∨ c = Models.B_A ∨ c = Models.diff_branches →
        Real.exp (make_data_logmutrel c8rels a b c).toReal =
          (c8rels a b c + alpha) / (1 + 3 * alpha)))) := by
  have hnn : ∀ a b c, 0 ≤ c8rels a b c := by
    intro a b c
    unfold c8rels
    split_ifs <;> norm_num
  have hsum : ∀ a b : Fin 2, a ≠ b →
      c8rels a b Models.A_B + c8rels a b Models.B_A +
        c8rels a b Models.diff_branches = 1 := by
    intro a b hab
    unfold c8rels
    rw [if_neg hab, if_neg hab, if_neg hab]
    rw [if_pos rfl, if_neg (by decide), if_pos rfl, if_neg (by decide),
      if_neg (by decide), if_pos rfl]
    norm_num
  exact ⟨⟨hnn, hsum⟩, c8_logmutrel_smoothing c8rels hnn hsum⟩


/-! ### Tree theory: parents, root distance, reachability -/

section TreeTheory

variable {adj : Adjm K}

lemma valid_col0_cols {M : Adjm K} (h1 : ∀ i j, M i j ≤ 1)
    (h2 : ∀ i, M i i = 1) (h3 : colSum M 0 = 1) :
    ∀ i, i ≠ 0 → M i 0 = 0 := by
  intro i hi
  unfold colSum at h3
  have hd := h2 0
  by_contra hne
  have hge : 1 ≤ M i 0 := Nat.one_le_iff_ne_zero.mpr hne
  have hsub : ({i, 0} : Finset (Fin (K + 1))) ⊆ Finset.univ := Finset.subset_univ _
  have hpair : ∑ x ∈ ({i, 0} : Finset (Fin (K + 1))), M x 0 ≤ 1 :=
    le_trans (Finset.sum_le_sum_of_subset hsub) (le_of_eq h3)
  rw [Finset.sum_pair hi] at hpair
  omega

lemma valid_col0 (hv : validAdj adj) : ∀ i, i ≠ 0 → adj i 0 = 0 :=
  valid_col0_cols hv.1 hv.2.1 hv.2.2.1

lemma offdiag_col_sum_cols {M : Adjm K} (h2 : ∀ i, M i i = 1)
    (h4 : ∀ j, j ≠ 0 → colSum M j = 2) {j : Fin (K + 1)} (hj : j ≠ 0) :
    ∑ i ∈ Finset.univ.erase j, M i j = 1 := by
  have hc := h4 j hj
  unfold colSum at hc
  have hd := h2 j
  rw [← Finset.sum_erase_add _ _ (Finset.mem_univ j)] at hc
  omega

lemma offdiag_col_sum (hv : validAdj adj) {j : Fin (K + 1)} (hj : j ≠ 0) :
    ∑ i ∈ Finset.univ.erase j, adj i j = 1 :=
  offdiag_col_sum_cols hv.2.1 hv.2.2.2.1 hj

lemma parent_exists_unique_cols {M : Adjm K} (h1 : ∀ i j, M i j ≤ 1)
    (h2 : ∀ i, M i i = 1) (h4 : ∀ j, j ≠ 0 → colSum M j = 2)
    {j : Fin (K + 1)} (hj : j ≠ 0) :
    ∃ i, (i ≠ j ∧ M i j = 1) ∧ ∀ i', i' ≠ j → M i' j = 1 → i' = i := by
  have hsum := offdiag_col_sum_cols h2 h4 hj
  have hex : ∃ i ∈ Finset.univ.erase j, M i j ≠ 0 := by
    apply Finset.exists_ne_zero_of_sum_ne_zero
    omega
  obtain ⟨i, hi_mem, hi_ne⟩ := hex
  have hi_ne_j : i ≠ j := Finset.ne_of_mem_erase hi_mem
  have hi1 : M i j = 1 := le_antisymm (h1 i j) (Nat.one_le_iff_ne_zero.mpr hi_ne)
  refine ⟨i, ⟨hi_ne_j, hi1⟩, ?_⟩
  intro i' hi'_ne hi'1
  by_contra hne
  have hsub : ({i, i'} : Finset (Fin (K + 1))) ⊆ Finset.univ.erase j := by
    intro x hx
    rcases Finset.mem_insert.mp hx with h | h
    · subst h; exact Finset.mem_erase.mpr ⟨hi_ne_j, Finset.mem_univ _⟩
    · rw [Finset.mem_singleton] at h
      subst h; exact Finset.mem_erase.mpr ⟨hi'_ne, Finset.mem_univ _⟩
  have hpair : ∑ x ∈ ({i, i'} : Finset (Fin (K + 1))), M x j ≤ 1 :=
    le_trans (Finset.sum_le_sum_of_subset hsub) (le_of_eq hsum)
  rw [Finset.sum_pair (fun h => hne h.symm)] at hpair
  omega

lemma parent_exists_unique (hv : validAdj adj) {j : Fin (K + 1)} (hj : j ≠ 0) :
    ∃ i, (i ≠ j ∧ adj i j = 1) ∧ ∀ i', i' ≠ j → adj i' j = 1 → i' = i :=
  parent_exists_unique_cols hv.1 hv.2.1 hv.2.2.2.1 hj

lemma par_spec_cols {M : Adjm K} (h1 : ∀ i j, M i j ≤ 1)
    (h2 : ∀ i, M i i = 1) (h4 : ∀ j, j ≠ 0 → colSum M j = 2)
    {j : Fin (K + 1)} (hj : j ≠ 0) :
    par M j ≠ j ∧ M (par M j) j = 1 := by
  obtain ⟨i0, hi0, _⟩ := parent_exists_unique_cols h1 h2 h4 hj
  unfold par
  cases hfind : (List.finRange (K + 1)).find?
      (fun i => decide (i ≠ j) && decide (M i j = 1)) with
  | none =>
      exfalso
      have := List.find?_eq_none.mp hfind i0 (List.mem_finRange i0)
      simp only [Bool.and_eq_true, decide_eq_true_eq] at this
      exact this ⟨hi0.1, hi0.2⟩
  | some i =>
      have := List.find?_some hfind
      simp only [Bool.and_eq_true, decide_eq_true_eq] at this
      exact this

lemma par_spec (hv : validAdj adj) {j : Fin (K + 1)} (hj : j ≠ 0) :
    par adj j ≠ j ∧ adj (par adj j) j = 1 :=
  par_spec_cols hv.1 hv.2.1 hv.2.2.2.1 hj

lemma par_unique_cols {M : Adjm K} (h1 : ∀ i j, M i j ≤ 1)
    (h2 : ∀ i, M i i = 1) (h4 : ∀ j, j ≠ 0 → colSum M j = 2)
    {j : Fin (K + 1)} (hj : j ≠ 0)
    {i : Fin (K + 1)} (hne : i ≠ j) (hone : M i j = 1) : i = par M j := by
  obtain ⟨i0, hi0, huniq⟩ := parent_exists_unique_cols h1 h2 h4 hj
  have ha := huniq i hne hone
  have hb := huniq (par M j) (par_spec_cols h1 h2 h4 hj).1 (par_spec_cols h1 h2 h4 hj).2
  rw [ha, hb]

lemma par_unique (hv : validAdj adj) {j : Fin (K + 1)} (hj : j ≠ 0)
    {i : Fin (K + 1)} (hne : i ≠ j) (h1 : adj i j = 1) : i = par adj j :=
  par_unique_cols hv.1 hv.2.1 hv.2.2.2.1 hj hne h1

lemma par_root_cols {M : Adjm K} (h1 : ∀ i j, M i j ≤ 1)
    (h2 : ∀ i, M i i = 1) (h3 : colSum M 0 = 1) : par M 0 = 0 := by
  unfold par
  cases hfind : (List.finRange (K + 1)).find?
      (fun i => decide (i ≠ (0 : Fin (K + 1))) && decide (M i 0 = 1)) with
  | none => rfl
  | some i =>
      exfalso
      have := List.find?_some hfind
      simp only [Bool.and_eq_true, decide_eq_true_eq] at this
      have := valid_col0_cols h1 h2 h3 i this.1
      omega

lemma par_root (hv : validAdj adj) : par adj 0 = 0 :=
  par_root_cols hv.1 hv.2.1 hv.2.2.1

lemma par_iterate_root (hv : validAdj adj) (n : ℕ) : (par adj)^[n] 0 = 0 := by
  induction n with
  | zero => rfl
  | succ n ih => rw [Function.iterate_succ_apply', ih, par_root hv]

lemma after_root (hv : validAdj adj) {n : ℕ} {j : Fin (K + 1)}
    (h : (par adj)^[n] j = 0) {m : ℕ} (hm : n ≤ m) : (par adj)^[m] j = 0 := by
  have : m = (m - n) + n := by omega
  rw [this, Function.iterate_add_apply, h, par_iterate_root hv]

lemma rootDist_spec (hv : validAdj adj) (j : Fin (K + 1)) :
    (par adj)^[rootDist hv j] j = 0 := by
  unfold rootDist
  exact Nat.find_spec (⟨K, hv.2.2.2.2 j⟩ : ∃ n, (par adj)^[n] j = 0)

lemma rootDist_le (hv : validAdj adj) {j : Fin (K + 1)} {n : ℕ}
    (h : (par adj)^[n] j = 0) : rootDist hv j ≤ n := by
  unfold rootDist
  exact Nat.find_min' (⟨K, hv.2.2.2.2 j⟩ : ∃ n, (par adj)^[n] j = 0) h

lemma rootDist_lt_ne (hv : validAdj adj) {j : Fin (K + 1)} {n : ℕ}
    (h : n < rootDist hv j) : (par adj)^[n] j ≠ 0 := by
  unfold rootDist at h
  exact Nat.find_min (⟨K, hv.2.2.2.2 j⟩ : ∃ n, (par adj)^[n] j = 0) h

lemma rootDist_le_K (hv : validAdj adj) (j : Fin (K + 1)) :
    rootDist hv j ≤ K := rootDist_le hv (hv.2.2.2.2 j)

lemma rootDist_zero (hv : validAdj adj) : rootDist hv 0 = 0 :=
  Nat.le_zero.mp (rootDist_le hv (by rfl))

/-- The nodes along the parent chain of `j`, up to the root, are pairwise
distinct. -/
lemma chain_inj (hv : validAdj adj) (j : Fin (K + 1)) {a b : ℕ}
    (hab : a < b) (hb : b ≤ rootDist hv j) :
    (par adj)^[a] j ≠ (par adj)^[b] j := by
  intro heq
  have hsplit : rootDist hv j = (rootDist hv j - b) + b := by omega
  have h0 : (par adj)^[rootDist hv j - b + a] j = 0 := by
    have h1 : (par adj)^[rootDist hv j - b + b] j = 0 := by
      rw [← hsplit]; exact rootDist_spec hv j
    rw [Function.iterate_add_apply] at h1 ⊢
    rw [heq]
    exact h1
  exact rootDist_lt_ne hv (by omega) h0

lemma rootDist_add (hv : validAdj adj) {i j : Fin (K + 1)} {m : ℕ}
    (h : (par adj)^[m] j = i) (hi : i ≠ 0) :
    rootDist hv j = m + rootDist hv i := by
  have hle : rootDist hv j ≤ m + rootDist hv i := by
    apply rootDist_le hv
    have hcomm : m + rootDist hv i = rootDist hv i + m := Nat.add_comm m (rootDist hv i)
    rw [hcomm, Function.iterate_add_apply, h]
    exact rootDist_spec hv i
  have hm : m ≤ rootDist hv j := by
    by_contra hc
    exact hi (h ▸ after_root hv (rootDist_spec hv j) (by omega))
  have hge : rootDist hv i ≤ rootDist hv j - m := by
    apply rootDist_le hv
    rw [← h, ← Function.iterate_add_apply]
    have : rootDist hv j - m + m = rootDist hv j := by omega
    rw [this]
    exact rootDist_spec hv j
  omega

lemma ancP_bounded (hv : validAdj adj) {i j : Fin (K + 1)} (h : ancP adj i j) :
    ∃ n, n ≤ K ∧ (par adj)^[n] j = i := by
  obtain ⟨n, hn⟩ := h
  by_cases hi : i = 0
  · subst hi
    exact ⟨rootDist hv j, rootDist_le_K hv j, rootDist_spec hv j⟩
  · refine ⟨n, ?_, hn⟩
    have : n ≤ rootDist hv j := by
      by_contra hc
      exact hi (hn ▸ after_root hv (rootDist_spec hv j) (by omega))
    have := rootDist_le_K hv j
    omega

lemma ancP_antisymm (hv : validAdj adj) {i j : Fin (K + 1)}
    (hij : ancP adj i j) (hji : ancP adj j i) : i = j := by
  obtain ⟨n, hn⟩ := hij
  obtain ⟨m, hm⟩ := hji
  by_cases hi : i = 0
  · subst hi
    rw [par_iterate_root hv] at hm
    exact hm
  · by_cases hj : j = 0
    · subst hj
      rw [par_iterate_root hv] at hn
      exact hn.symm
    · have h1 := rootDist_add hv hn hi
      have h2 := rootDist_add hv hm hj
      have hn0 : n = 0 := by omega
      subst hn0
      simpa using hn.symm

lemma child_par (hv : validAdj adj) {a c : Fin (K + 1)}
    (hne : c ≠ a) (he : adj a c = 1) : c ≠ 0 ∧ par adj c = a := by
  have hc0 : c ≠ 0 := by
    intro h0
    subst h0
    exact absurd he (by rw [valid_col0 hv a (Ne.symm hne)]; omega)
  exact ⟨hc0, (par_unique hv hc0 (Ne.symm hne) he).symm⟩

lemma hasPath_to_ancP (hv : validAdj adj) {i j : Fin (K + 1)}
    (h : hasPath adj i j) : ancP adj i j := by
  unfold hasPath at h
  induction h with
  | refl => exact ⟨0, rfl⟩
  | tail hab hbc ih =>
      obtain ⟨n, hn⟩ := ih
      obtain ⟨hc0, hpc⟩ := child_par hv hbc.1 hbc.2
      exact ⟨n + 1, by rw [Function.iterate_succ_apply, hpc, hn]⟩

lemma ancP_to_hasPath (hv : validAdj adj) {i j : Fin (K + 1)}
    (h : ancP adj i j) : hasPath adj i j := by
  obtain ⟨n, hn⟩ := h
  induction n generalizing i j with
  | zero => rw [← hn]; exact Relation.ReflTransGen.refl
  | succ n ih =>
      rw [Function.iterate_succ_apply'] at hn
      by_cases hc : (par adj)^[n] j = 0
      · rw [hc, par_root hv] at hn
        exact ih (by rw [hc, hn])
      · have hspec := par_spec hv hc
        have hedge : (par adj)^[n] j ≠ i ∧ adj i ((par adj)^[n] j) = 1 := by
          rw [← hn]
          exact ⟨fun hh => hspec.1 hh.symm, hspec.2⟩
        exact Relation.ReflTransGen.head ⟨hedge.1, hedge.2⟩ (ih rfl)

lemma reachesB_succ_of (adj : Adjm K) {n : ℕ} {i j : Fin (K + 1)}
    (h : reachesB adj n i j = true) : reachesB adj (n + 1) i j = true := by
  induction n generalizing i with
  | zero =>
      unfold reachesB at h ⊢
      simp only [Bool.or_eq_true]
      left
      exact h
  | succ n ih =>
      unfold reachesB at h ⊢
      simp only [Bool.or_eq_true, decide_eq_true_eq] at h ⊢
      rcases h with h | ⟨c, hc⟩
      · left; exact h
      · right; exact ⟨c, hc.1, hc.2.1, ih hc.2.2⟩

lemma reachesB_mono (adj : Adjm K) {n m : ℕ} {i j : Fin (K + 1)}
    (h : reachesB adj n i j = true) (hnm : n ≤ m) : reachesB adj m i j = true := by
  induction m with
  | zero =>
      have : n = 0 := by omega
      subst this
      exact h
  | succ m ih =>
      by_cases he : n = m + 1
      · subst he; exact h
      · exact reachesB_succ_of adj (ih (by omega))

lemma ancP_to_reachesB (hv : validAdj adj) {n : ℕ} {i j : Fin (K + 1)}
    (h : (par adj)^[n] j = i) : reachesB adj n i j = true := by
  induction n generalizing i j with
  | zero =>
      unfold reachesB
      simp [← h]
  | succ n ih =>
      rw [Function.iterate_succ_apply'] at h
      by_cases hc : (par adj)^[n] j = 0
      · rw [hc, par_root hv] at h
        exact reachesB_succ_of adj (ih (by rw [hc, h]))
      · have hspec := par_spec hv hc
        unfold reachesB
        simp only [Bool.or_eq_true, decide_eq_true_eq]
        right
        subst h
        exact ⟨(par adj)^[n] j, hspec.1.symm, hspec.2, ih rfl⟩

lemma reachesB_to_hasPath (adj : Adjm K) {n : ℕ} {i j : Fin (K + 1)}
    (h : reachesB adj n i j = true) : hasPath adj i j := by
  induction n generalizing i with
  | zero =>
      unfold reachesB at h
      rw [beq_iff_eq] at h
      rw [h]
      exact Relation.ReflTransGen.refl
  | succ n ih =>
      unfold reachesB at h
      simp only [Bool.or_eq_true, beq_iff_eq, decide_eq_true_eq] at h
      rcases h with h | ⟨c, hc, hadj, hrec⟩
      · rw [h]
        exact Relation.ReflTransGen.refl
      · exact Relation.ReflTransGen.head ⟨hc, hadj⟩ (ih hrec)

lemma hasPath_iff_reachesB (hv : validAdj adj) {i j : Fin (K + 1)} :
    hasPath adj i j ↔ reachesB adj K i j = true := by
  constructor
  · intro h
    obtain ⟨n, hn, hit⟩ := ancP_bounded hv (hasPath_to_ancP hv h)
    exact reachesB_mono adj (ancP_to_reachesB hv hit) hn
  · exact reachesB_to_hasPath adj

lemma hasPath_iff_ancP (hv : validAdj adj) {i j : Fin (K + 1)} :
    hasPath adj i j ↔ ancP adj i j :=
  ⟨hasPath_to_ancP hv, ancP_to_hasPath hv⟩

end TreeTheory


/-! ### C3: `make_ancestral_from_adj` computes the transitive closure -/

section Ancestral

variable {adj : Adjm K}

lemma row_sum_ne_zero (hv : validAdj adj) (I : Fin (K + 1)) :
    (∑ i, adj I i) ≠ 0 := by
  intro h
  have := (Finset.sum_eq_zero_iff.mp h) I (Finset.mem_univ I)
  rw [hv.2.1 I] at this
  exact one_ne_zero this

lemma ancP_decomp (hv : validAdj adj) {I j : Fin (K + 1)} (h : ancP adj I j)
    (hne : j ≠ I) : ∃ c, c ≠ I ∧ adj I c = 1 ∧ ancP adj c j := by
  have hex : ∃ n, (par adj)^[n] j = I := h
  have hspec : (par adj)^[Nat.find hex] j = I := Nat.find_spec hex
  have hm1 : 1 ≤ Nat.find hex := by
    by_contra hc
    have h0 : Nat.find hex = 0 := by omega
    rw [h0] at hspec
    exact hne hspec
  refine ⟨(par adj)^[Nat.find hex - 1] j, ?_, ?_, ⟨Nat.find hex - 1, rfl⟩⟩
  · intro hh
    exact Nat.find_min hex (show Nat.find hex - 1 < Nat.find hex by omega) hh
  · have hc0 : (par adj)^[Nat.find hex - 1] j ≠ 0 := by
      intro hh
      have hI0 : I = 0 := by
        rw [← hspec]
        have hsplit : Nat.find hex = (Nat.find hex - 1) + 1 := by omega
        rw [hsplit, Function.iterate_succ_apply', hh, par_root hv]
      exact Nat.find_min hex (show Nat.find hex - 1 < Nat.find hex by omega)
        (by rw [hh, hI0])
    have hpar : par adj ((par adj)^[Nat.find hex - 1] j) = I := by
      have hsplit : Nat.find hex = (Nat.find hex - 1) + 1 := by omega
      rw [hsplit, Function.iterate_succ_apply'] at hspec
      exact hspec
    have hps := (par_spec hv hc0).2
    rw [hpar] at hps
    exact hps

lemma ancP_of_child (hv : validAdj adj) {I c j : Fin (K + 1)}
    (hc : c ≠ I) (hadj : adj I c = 1) (h : ancP adj c j) : ancP adj I j := by
  obtain ⟨hc0, hpc⟩ := child_par hv hc hadj
  obtain ⟨n, hn⟩ := h
  exact ⟨n + 1, by rw [Function.iterate_succ_apply', hn, hpc]⟩

lemma rootDist_child (hv : validAdj adj) {I c : Fin (K + 1)}
    (hc : c ≠ I) (hadj : adj I c = 1) :
    rootDist hv c = 1 + rootDist hv I := by
  obtain ⟨hc0, hpc⟩ := child_par hv hc hadj
  by_cases hI : I = 0
  · subst hI
    have h1 : (par adj)^[1] c = 0 := by simpa using hpc
    have hle : rootDist hv c ≤ 1 := rootDist_le hv h1
    have hne : rootDist hv c ≠ 0 := by
      intro hh
      have hsp := rootDist_spec hv c
      rw [hh] at hsp
      exact hc0 hsp
    rw [rootDist_zero hv]
    omega
  · exact rootDist_add hv (show (par adj)^[1] c = I by simpa using hpc) hI

lemma findDesc_correct (hv : validAdj adj) :
    ∀ (f : ℕ) (I : Fin (K + 1)), K - rootDist hv I ≤ f →
      ∀ j, (findDesc adj f I (adj I) j = 1 ↔ ancP adj I j) ∧
        findDesc adj f I (adj I) j ≤ 1 := by
  intro f
  induction f with
  | zero =>
      intro I hf j
      have hrd : rootDist hv I = K := le_antisymm (rootDist_le_K hv I) (by omega)
      show (adj I j = 1 ↔ ancP adj I j) ∧ adj I j ≤ 1
      refine ⟨⟨?_, ?_⟩, hv.1 I j⟩
      · intro h1
        by_cases hji : j = I
        · exact ⟨0, by rw [hji]; rfl⟩
        · exfalso
          have hrc := rootDist_child hv hji h1
          have := rootDist_le_K hv j
          omega
      · intro h
        by_cases hji : j = I
        · rw [hji, hv.2.1 I]
        · exfalso
          obtain ⟨c, hcI, hadj, hanc⟩ := ancP_decomp hv h hji
          have hrc := rootDist_child hv hcI hadj
          have := rootDist_le_K hv c
          omega
  | succ f ih =>
      intro I hf j
      have hsum := row_sum_ne_zero hv I
      have hstep : findDesc adj (f + 1) I (adj I) =
          fun j => min 1 (adj I j +
            ∑ c ∈ Finset.univ.filter (fun c => c ≠ I ∧ adj I c = 1),
              findDesc adj f c (adj c) j) := by
        show (if (∑ i, adj I i) = 0 then (adj I) else
          fun j => min 1 (adj I j +
            ∑ c ∈ Finset.univ.filter (fun c => c ≠ I ∧ adj I c = 1),
              findDesc adj f c (adj c) j)) = _
        rw [if_neg hsum]
      have hchild : ∀ c ∈ Finset.univ.filter
          (fun c => c ≠ I ∧ adj I c = 1),
          (findDesc adj f c (adj c) j = 1 ↔ ancP adj c j) ∧
            findDesc adj f c (adj c) j ≤ 1 := by
        intro c hcmem
        rw [Finset.mem_filter] at hcmem
        obtain ⟨-, hcI, hadj⟩ := hcmem
        have hrc := rootDist_child hv hcI hadj
        have hK := rootDist_le_K hv c
        exact ih c (by omega) j
      rw [hstep]
      dsimp only
      constructor
      · constructor
        · intro h1
          have hx : 1 ≤ adj I j +
              ∑ c ∈ Finset.univ.filter (fun c => c ≠ I ∧ adj I c = 1),
                findDesc adj f c (adj c) j := by
            by_contra hc
            have h0 : adj I j +
                ∑ c ∈ Finset.univ.filter (fun c => c ≠ I ∧ adj I c = 1),
                  findDesc adj f c (adj c) j = 0 := by omega
            rw [h0] at h1
            simp at h1
          rcases Nat.eq_zero_or_pos (adj I j) with hz | hp
          · have hS : 1 ≤ ∑ c ∈ Finset.univ.filter
                (fun c => c ≠ I ∧ adj I c = 1), findDesc adj f c (adj c) j := by
              omega
            obtain ⟨c, hcmem, hcne⟩ := Finset.exists_ne_zero_of_sum_ne_zero
              (show (∑ c ∈ Finset.univ.filter (fun c => c ≠ I ∧ adj I c = 1),
                findDesc adj f c (adj c) j) ≠ 0 by omega)
            have hcval : findDesc adj f c (adj c) j = 1 := by
              have := (hchild c hcmem).2
              omega
            have hanc := (hchild c hcmem).1.mp hcval
            rw [Finset.mem_filter] at hcmem
            exact ancP_of_child hv hcmem.2.1 hcmem.2.2 hanc
          · have hIj : adj I j = 1 := le_antisymm (hv.1 I j) hp
            by_cases hji : j = I
            · exact ⟨0, by rw [hji]; rfl⟩
            · obtain ⟨hj0, hpj⟩ := child_par hv hji hIj
              exact ⟨1, by simpa using hpj⟩
        · intro hanc
          have hx : 1 ≤ adj I j +
              ∑ c ∈ Finset.univ.filter (fun c => c ≠ I ∧ adj I c = 1),
                findDesc adj f c (adj c) j := by
            by_cases hji : j = I
            · have : adj I j = 1 := by rw [hji]; exact hv.2.1 I
              omega
            · obtain ⟨c, hcI, hadj, hcanc⟩ := ancP_decomp hv hanc hji
              have hcmem : c ∈ Finset.univ.filter
                  (fun c => c ≠ I ∧ adj I c = 1) :=
                Finset.mem_filter.mpr ⟨Finset.mem_univ c, hcI, hadj⟩
              have hcval : findDesc adj f c (adj c) j = 1 :=
                (hchild c hcmem).1.mpr hcanc
              have hle : findDesc adj f c (adj c) j ≤
                  ∑ x ∈ Finset.univ.filter (fun c => c ≠ I ∧ adj I c = 1),
                    findDesc adj f x (adj x) j :=
                Finset.single_le_sum
                  (fun x _ => Nat.zero_le (findDesc adj f x (adj x) j)) hcmem
              omega
          exact min_eq_left hx
      · exact min_le_left 1 _

lemma make_ancestral_correct (hv : validAdj adj) (i j : Fin (K + 1)) :
    (make_ancestral_from_adj adj i j = 1 ↔ ancP adj i j) ∧
      make_ancestral_from_adj adj i j ≤ 1 := by
  have hb : K - rootDist hv i ≤ K + 1 := by omega
  exact findDesc_correct hv (K + 1) i hb j

end Ancestral

/-- C3: for every valid adjacency matrix (in any node ordering),
`make_ancestral_from_adj` returns exactly the transitive closure: entry
`[i][j]` is 1 iff `i = j` or there is a directed path from `i` to `j` in
the adjacency graph with the diagonal removed, and 0 otherwise. -/
theorem c3_make_ancestral_transitive_closure {K : ℕ} {adj : Adjm K}
    (hv : validAdj adj) (i j : Fin (K + 1)) :
    (make_ancestral_from_adj adj i j = 1 ↔ hasPath adj i j) ∧
      (¬ hasPath adj i j → make_ancestral_from_adj adj i j = 0) := by
  obtain ⟨hiff, hle⟩ := make_ancestral_correct hv i j
  rw [hasPath_iff_ancP hv]
  refine ⟨hiff, ?_⟩
  intro hnot
  have : make_ancestral_from_adj adj i j ≠ 1 := fun h => hnot (hiff.mp h)
  omega

theorem c3_witness :
    validAdj c2adj ∧
    ((make_ancestral_from_adj c2adj 0 2 = 1 ↔ hasPath c2adj 0 2) ∧
      (¬ hasPath c2adj 0 2 → make_ancestral_from_adj c2adj 0 2 = 0)) :=
  ⟨by decide, c3_make_ancestral_transitive_closure (by decide) 0 2⟩


/-! ### C2: `_modify_tree` preserves the tree invariants -/

section ModifyTree

variable {adj anc : Adjm K} {A B : Fin (K + 1)}

lemma swapIdx_left (A B : Fin (K + 1)) : swapIdx A B A = B := by
  unfold swapIdx
  rw [if_pos rfl]

lemma swapIdx_right (A B : Fin (K + 1)) : swapIdx A B B = A := by
  unfold swapIdx
  by_cases h : B = A
  · rw [if_pos h, h]
  · rw [if_neg h, if_pos rfl]

lemma swapIdx_other {A B i : Fin (K + 1)} (hA : i ≠ A) (hB : i ≠ B) :
    swapIdx A B i = i := by
  unfold swapIdx
  rw [if_neg hA, if_neg hB]

lemma swapIdx_invol (A B i : Fin (K + 1)) :
    swapIdx A B (swapIdx A B i) = i := by
  by_cases hA : i = A
  · subst hA
    rw [swapIdx_left, swapIdx_right]
  · by_cases hB : i = B
    · subst hB
      rw [swapIdx_right, swapIdx_left]
    · rw [swapIdx_other hA hB, swapIdx_other hA hB]

lemma swapIdx_inj {A B i j : Fin (K + 1)} (h : swapIdx A B i = swapIdx A B j) :
    i = j := by
  have := congrArg (swapIdx A B) h
  rwa [swapIdx_invol, swapIdx_invol] at this

lemma swapIdx_zero {A B : Fin (K + 1)} (hA : A ≠ 0) (hB : B ≠ 0) :
    swapIdx A B 0 = 0 :=
  swapIdx_other (fun h => hA h.symm) (fun h => hB h.symm)

lemma swapIdx_ne_zero {A B j : Fin (K + 1)} (hA : A ≠ 0) (hB : B ≠ 0)
    (hj : j ≠ 0) : swapIdx A B j ≠ 0 := by
  intro h
  apply hj
  have := congrArg (swapIdx A B) h
  rwa [swapIdx_invol, swapIdx_zero hA hB] at this

lemma par_iterate_root_cols {M : Adjm K} (h1 : ∀ i j, M i j ≤ 1)
    (h2 : ∀ i, M i i = 1) (h3 : colSum M 0 = 1) (n : ℕ) :
    (par M)^[n] 0 = 0 := by
  induction n with
  | zero => rfl
  | succ n ih => rw [Function.iterate_succ_apply', ih, par_root_cols h1 h2 h3]

lemma after_root_cols {M : Adjm K} (h1 : ∀ i j, M i j ≤ 1)
    (h2 : ∀ i, M i i = 1) (h3 : colSum M 0 = 1) {n : ℕ} {j : Fin (K + 1)}
    (h : (par M)^[n] j = 0) {m : ℕ} (hm : n ≤ m) : (par M)^[m] j = 0 := by
  have hsplit : m = (m - n) + n := by omega
  rw [hsplit, Function.iterate_add_apply, h, par_iterate_root_cols h1 h2 h3]

/-- Decoding the ancestry-matrix hypothesis: a nonzero `anc` entry means
ancestor-or-self. -/
lemma anc_entry_iff (hv : validAdj adj) (hanc : isAncestryOf anc adj)
    (i j : Fin (K + 1)) : anc i j ≠ 0 ↔ ancP adj i j := by
  rw [hanc i j]
  by_cases h : reachesB adj K i j
  · rw [if_pos h]
    simp only [ne_eq, one_ne_zero, not_false_eq_true, true_iff]
    exact hasPath_to_ancP hv (reachesB_to_hasPath adj h)
  · rw [if_neg h]
    simp only [ne_eq, not_true_eq_false, false_iff]
    intro hancP
    exact h ((hasPath_iff_reachesB hv).mp (ancP_to_hasPath hv hancP))

lemma ancP_A_ne_zero (hv : validAdj adj) (hB : B ≠ 0) (hBA : ancP adj B A) :
    A ≠ 0 := by
  intro h0
  subst h0
  obtain ⟨n, hn⟩ := hBA
  rw [par_iterate_root hv] at hn
  exact hB hn.symm

lemma not_ancP_AB (hv : validAdj adj) (hAB : A ≠ B) (hBA : ancP adj B A) :
    ¬ ancP adj A B :=
  fun hab => hAB (ancP_antisymm hv hab hBA)

lemma adj_AB_zero (hv : validAdj adj) (hAB : A ≠ B) (hBA : ancP adj B A) :
    adj A B = 0 := by
  by_contra hne
  have h1 : adj A B = 1 := le_antisymm (hv.1 A B) (Nat.one_le_iff_ne_zero.mpr hne)
  obtain ⟨hB0, hpB⟩ := child_par hv (fun h => hAB h.symm) h1
  exact not_ancP_AB hv hAB hBA ⟨1, by simpa using hpB⟩

/-- In the swap branch, `_modify_tree` relabels the off-diagonal part of the
matrix by the transposition of `A` and `B`. -/
lemma modify_tree_swap_eq (hv : validAdj adj) (hanc : isAncestryOf anc adj)
    (hAB : A ≠ B) (hB : B ≠ 0) (hBA : ancP adj B A) :
    modify_tree adj anc A B = fun i j =>
      if i = j then 1
      else (fillDiag adj 0) (swapIdx A B i) (swapIdx A B j) := by
  have hBA' : B ≠ A := fun h => hAB h.symm
  have hcond : fillDiag anc 0 B A ≠ 0 := by
    unfold fillDiag
    rw [if_neg hBA']
    exact (anc_entry_iff hv hanc B A).mpr hBA
  have hABv : adj A B = 0 := adj_AB_zero hv hAB hBA
  funext i j
  unfold modify_tree
  dsimp only
  rw [if_pos hcond]
  unfold fillDiag swapIdx
  dsimp only
  by_cases hij : i = j
  · simp [hij]
  · by_cases hiA : i = A
    · by_cases hjB : j = B
      · -- entry (A, B)
        by_cases hba : adj B A = 0
        · simp [hiA, hjB, hij, hAB, hBA', hba, hABv]
        · have hba1 : adj B A = 1 := by have := hv.1 B A; omega
          simp [hiA, hjB, hij, hAB, hBA', hba, hba1]
      · -- i = A, j ∉ {A, B}
        have hjA : j ≠ A := fun h => hij (by rw [hiA, h])
        simp [hiA, hjA, hjB, hAB, hBA']
    · by_cases hiB : i = B
      · by_cases hjA : j = A
        · -- entry (B, A)
          simp [hiB, hjA, hij, hAB, hBA', hABv]
        · -- i = B, j ∉ {A, B}
          have hjB : j ≠ B := fun h => hij (by rw [hiB, h])
          simp [hiB, hjA, hjB, hAB, hBA']
      · by_cases hjA : j = A
        · -- i ∉ {A, B}, j = A
          simp [hjA, hiA, hiB, hAB, hBA']
        · by_cases hjB : j = B
          · -- i ∉ {A, B}, j = B
            simp [hjB, hiA, hiB, hAB, hBA']
          · simp [hiA, hiB, hjA, hjB, hij]

end ModifyTree


section ModifyTreeValid

variable {adj anc : Adjm K} {A B : Fin (K + 1)}

/-- Column sums of the swap-relabeled matrix. -/
lemma colSum_swap_relabel (hv : validAdj adj) (A B : Fin (K + 1))
    (j : Fin (K + 1)) :
    colSum (fun i j => if i = j then 1
      else (fillDiag adj 0) (swapIdx A B i) (swapIdx A B j)) j =
      colSum adj (swapIdx A B j) := by
  unfold colSum
  rw [← Finset.sum_erase_add _ _ (Finset.mem_univ j)]
  dsimp only
  have hdiag : (if j = j then 1
      else (fillDiag adj 0) (swapIdx A B j) (swapIdx A B j)) = 1 := if_pos rfl
  rw [hdiag]
  have hreindex :
      ∑ i ∈ Finset.univ.erase j,
        (if i = j then 1 else (fillDiag adj 0) (swapIdx A B i) (swapIdx A B j)) =
      ∑ i' ∈ Finset.univ.erase (swapIdx A B j),
        (fillDiag adj 0) i' (swapIdx A B j) := by
    apply Finset.sum_nbij' (fun i => swapIdx A B i) (fun i' => swapIdx A B i')
    · intro a ha
      rw [Finset.mem_erase] at ha ⊢
      exact ⟨fun h => ha.1 (swapIdx_inj h), Finset.mem_univ _⟩
    · intro a ha
      rw [Finset.mem_erase] at ha ⊢
      refine ⟨fun h => ha.1 ?_, Finset.mem_univ _⟩
      rw [← h, swapIdx_invol]
    · intro a _
      exact swapIdx_invol A B a
    · intro a _
      exact swapIdx_invol A B a
    · intro a ha
      rw [Finset.mem_erase] at ha
      rw [if_neg ha.1]
  rw [hreindex]
  have hdrop : ∑ i' ∈ Finset.univ.erase (swapIdx A B j),
      (fillDiag adj 0) i' (swapIdx A B j) =
      ∑ i' ∈ Finset.univ.erase (swapIdx A B j), adj i' (swapIdx A B j) := by
    apply Finset.sum_congr rfl
    intro i' hi'
    rw [Finset.mem_erase] at hi'
    unfold fillDiag
    rw [if_neg hi'.1]
  rw [hdrop]
  have hfull : ∑ i' ∈ Finset.univ.erase (swapIdx A B j), adj i' (swapIdx A B j) + 1 =
      ∑ i : Fin (K + 1), adj i (swapIdx A B j) := by
    rw [← Finset.sum_erase_add _ _ (Finset.mem_univ (swapIdx A B j)),
      hv.2.1 (swapIdx A B j)]
  omega

/-- Validity of the swap-relabeled matrix. -/
lemma valid_swap_relabel (hv : validAdj adj) (hA : A ≠ 0) (hB : B ≠ 0) :
    validAdj (fun i j => if i = j then 1
      else (fillDiag adj 0) (swapIdx A B i) (swapIdx A B j)) := by
  have h1 : ∀ i j : Fin (K + 1),
      (if i = j then (1 : ℕ)
        else (fillDiag adj 0) (swapIdx A B i) (swapIdx A B j)) ≤ 1 := by
    intro i j
    unfold fillDiag
    split_ifs
    · exact le_refl 1
    · omega
    · exact hv.1 _ _
  have h2 : ∀ i : Fin (K + 1),
      (if i = i then (1 : ℕ)
        else (fillDiag adj 0) (swapIdx A B i) (swapIdx A B i)) = 1 :=
    fun i => if_pos rfl
  have hcol := colSum_swap_relabel hv A B
  have h3 : colSum (fun i j => if i = j then 1
      else (fillDiag adj 0) (swapIdx A B i) (swapIdx A B j)) 0 = 1 := by
    rw [hcol 0, swapIdx_zero hA hB]
    exact hv.2.2.1
  have h4 : ∀ j : Fin (K + 1), j ≠ 0 → colSum (fun i j => if i = j then 1
      else (fillDiag adj 0) (swapIdx A B i) (swapIdx A B j)) j = 2 := by
    intro j hj
    rw [hcol j]
    exact hv.2.2.2.1 _ (swapIdx_ne_zero hA hB hj)
  have hparM : ∀ j : Fin (K + 1),
      par (fun i j => if i = j then 1
        else (fillDiag adj 0) (swapIdx A B i) (swapIdx A B j)) j =
      swapIdx A B (par adj (swapIdx A B j)) := by
    intro j
    by_cases hj : j = 0
    · subst hj
      rw [par_root_cols h1 h2 h3, swapIdx_zero hA hB, par_root hv,
        swapIdx_zero hA hB]
    · have hsj : swapIdx A B j ≠ 0 := swapIdx_ne_zero hA hB hj
      have hps := par_spec hv hsj
      have hne : swapIdx A B (par adj (swapIdx A B j)) ≠ j := by
        intro h
        apply hps.1
        have := congrArg (swapIdx A B) h
        rwa [swapIdx_invol] at this
      have hone : (if swapIdx A B (par adj (swapIdx A B j)) = j then (1 : ℕ)
          else (fillDiag adj 0)
            (swapIdx A B (swapIdx A B (par adj (swapIdx A B j))))
            (swapIdx A B j)) = 1 := by
        rw [if_neg hne, swapIdx_invol]
        unfold fillDiag
        rw [if_neg hps.1]
        exact hps.2
      exact (par_unique_cols h1 h2 h4 hj hne hone).symm
  have hiter : ∀ (n : ℕ) (j : Fin (K + 1)),
      (par (fun i j => if i = j then 1
        else (fillDiag adj 0) (swapIdx A B i) (swapIdx A B j)))^[n] j =
      swapIdx A B ((par adj)^[n] (swapIdx A B j)) := by
    intro n
    induction n with
    | zero => intro j; rw [Function.iterate_zero_apply, Function.iterate_zero_apply,
        swapIdx_invol]
    | succ n ih =>
        intro j
        rw [Function.iterate_succ_apply', Function.iterate_succ_apply', ih,
          hparM, swapIdx_invol]
  refine ⟨h1, fun i => if_pos rfl, h3, h4, ?_⟩
  intro j
  rw [hiter K j, hv.2.2.2.2 (swapIdx A B j), swapIdx_zero hA hB]

/-- In the move branch, `_modify_tree` replaces column `B` (zero it, then
set `adj[A,B] = 1`) and restores the diagonal. -/
lemma modify_tree_move_eq (adj anc : Adjm K) (A B : Fin (K + 1))
    (hcond : ¬ fillDiag anc 0 B A ≠ 0) :
    modify_tree adj anc A B = fun i j =>
      if i = j then 1 else if j = B then (if i = A then 1 else 0)
      else fillDiag adj 0 i j := by
  funext i j
  unfold modify_tree
  dsimp only
  rw [if_neg hcond]
  unfold fillDiag
  dsimp only

/-- Validity of the move-branch result. -/
lemma valid_move (hv : validAdj adj) (hAB : A ≠ B) (hB : B ≠ 0)
    (hnBA : ¬ ancP adj B A) :
    validAdj (fun i j => if i = j then 1
      else if j = B then (if i = A then 1 else 0) else fillDiag adj 0 i j) := by
  have h1 : ∀ i j : Fin (K + 1), (if i = j then (1 : ℕ)
      else if j = B then (if i = A then 1 else 0) else fillDiag adj 0 i j) ≤ 1 := by
    intro i j
    unfold fillDiag
    split_ifs <;> first | omega | exact hv.1 _ _
  have h2 : ∀ i : Fin (K + 1), (if i = i then (1 : ℕ)
      else if i = B then (if i = A then 1 else 0) else fillDiag adj 0 i i) = 1 :=
    fun i => if_pos rfl
  have hcolne : ∀ j : Fin (K + 1), j ≠ B → colSum (fun i j => if i = j then 1
      else if j = B then (if i = A then 1 else 0) else fillDiag adj 0 i j) j =
      colSum adj j := by
    intro j hjB
    unfold colSum
    rw [← Finset.sum_erase_add _ _ (Finset.mem_univ j),
      ← Finset.sum_erase_add _ _ (Finset.mem_univ j)]
    dsimp only
    have hd1 : (if j = j then (1 : ℕ)
        else if j = B then (if j = A then 1 else 0) else fillDiag adj 0 j j) = 1 :=
      if_pos rfl
    rw [hd1, hv.2.1 j]
    have : ∑ i ∈ Finset.univ.erase j,
        (if i = j then (1 : ℕ)
          else if j = B then (if i = A then 1 else 0) else fillDiag adj 0 i j) =
        ∑ i ∈ Finset.univ.erase j, adj i j := by
      apply Finset.sum_congr rfl
      intro i hi
      rw [Finset.mem_erase] at hi
      rw [if_neg hi.1, if_neg hjB]
      unfold fillDiag
      rw [if_neg hi.1]
    rw [this]
  have hcolB : colSum (fun i j => if i = j then 1
      else if j = B then (if i = A then 1 else 0) else fillDiag adj 0 i j) B = 2 := by
    unfold colSum
    rw [← Finset.sum_erase_add _ _ (Finset.mem_univ B)]
    dsimp only
    have hd1 : (if B = B then (1 : ℕ)
        else if B = B then (if B = A then 1 else 0) else fillDiag adj 0 B B) = 1 :=
      if_pos rfl
    rw [hd1]
    have : ∑ i ∈ Finset.univ.erase B,
        (if i = B then (1 : ℕ)
          else if B = B then (if i = A then 1 else 0) else fillDiag adj 0 i B) =
        ∑ i ∈ Finset.univ.erase B, (if i = A then (1 : ℕ) else 0) := by
      apply Finset.sum_congr rfl
      intro i hi
      rw [Finset.mem_erase] at hi
      rw [if_neg hi.1, if_pos rfl]
    rw [this, Finset.sum_ite_eq' (Finset.univ.erase B) A (fun _ => (1 : ℕ)),
      if_pos (Finset.mem_erase.mpr ⟨hAB, Finset.mem_univ A⟩)]
  have h3 : colSum (fun i j => if i = j then 1
      else if j = B then (if i = A then 1 else 0) else fillDiag adj 0 i j) 0 = 1 := by
    rw [hcolne 0 (fun h => hB h.symm)]
    exact hv.2.2.1
  have h4 : ∀ j : Fin (K + 1), j ≠ 0 → colSum (fun i j => if i = j then 1
      else if j = B then (if i = A then 1 else 0) else fillDiag adj 0 i j) j = 2 := by
    intro j hj
    by_cases hjB : j = B
    · rw [hjB]; exact hcolB
    · rw [hcolne j hjB]; exact hv.2.2.2.1 j hj
  have hpar0 : par (fun i j => if i = j then 1
      else if j = B then (if i = A then 1 else 0) else fillDiag adj 0 i j) 0 = 0 :=
    par_root_cols h1 h2 h3
  have hpar : ∀ j : Fin (K + 1), j ≠ 0 → par (fun i j => if i = j then 1
      else if j = B then (if i = A then 1 else 0) else fillDiag adj 0 i j) j =
      if j = B then A else par adj j := by
    intro j hj
    by_cases hjB : j = B
    · subst hjB
      rw [if_pos rfl]
      have hone : (if A = j then (1 : ℕ)
          else if j = j then (if A = A then 1 else 0) else fillDiag adj 0 A j) = 1 := by
        rw [if_neg hAB, if_pos rfl, if_pos rfl]
      exact (par_unique_cols h1 h2 h4 hj hAB hone).symm
    · rw [if_neg hjB]
      have hps := par_spec hv hj
      have hone : (if par adj j = j then (1 : ℕ)
          else if j = B then (if par adj j = A then 1 else 0)
          else fillDiag adj 0 (par adj j) j) = 1 := by
        rw [if_neg hps.1, if_neg hjB]
        unfold fillDiag
        rw [if_neg hps.1]
        exact hps.2
      exact (par_unique_cols h1 h2 h4 hj hps.1 hone).symm
  have hparM_eq : ∀ x : Fin (K + 1), x ≠ B → par (fun i j => if i = j then 1
      else if j = B then (if i = A then 1 else 0) else fillDiag adj 0 i j) x =
      par adj x := by
    intro x hx
    by_cases hx0 : x = 0
    · subst hx0; rw [hpar0, par_root hv]
    · rw [hpar x hx0, if_neg hx]
  have hchain : ∀ j : Fin (K + 1), ∃ n, n ≤ K ∧
      (par (fun i j => if i = j then 1
        else if j = B then (if i = A then 1 else 0)
        else fillDiag adj 0 i j))^[n] j = 0 := by
    intro j
    by_cases hBj : ancP adj B j
    · have hex : ∃ n, (par adj)^[n] j = B := hBj
      have hmspec : (par adj)^[Nat.find hex] j = B := Nat.find_spec hex
      have hprefix : ∀ t, t ≤ Nat.find hex →
          (par (fun i j => if i = j then 1
            else if j = B then (if i = A then 1 else 0)
            else fillDiag adj 0 i j))^[t] j = (par adj)^[t] j := by
        intro t
        induction t with
        | zero => intro _; rfl
        | succ t iht =>
            intro ht
            rw [Function.iterate_succ_apply', Function.iterate_succ_apply',
              iht (by omega)]
            apply hparM_eq
            intro hEq
            exact absurd hEq (Nat.find_min hex (show t < Nat.find hex by omega))
      have hstepB : (par (fun i j => if i = j then 1
          else if j = B then (if i = A then 1 else 0)
          else fillDiag adj 0 i j))^[Nat.find hex + 1] j = A := by
        rw [Function.iterate_succ_apply', hprefix (Nat.find hex) le_rfl, hmspec,
          hpar B hB, if_pos rfl]
      have hAvoid : ∀ s : ℕ, (par adj)^[s] A ≠ B := fun s hEq => hnBA ⟨s, hEq⟩
      have hAeq : ∀ s : ℕ, (par (fun i j => if i = j then 1
          else if j = B then (if i = A then 1 else 0)
          else fillDiag adj 0 i j))^[s] A = (par adj)^[s] A := by
        intro s
        induction s with
        | zero => rfl
        | succ s ihs =>
            rw [Function.iterate_succ_apply', Function.iterate_succ_apply', ihs]
            exact hparM_eq _ (hAvoid s)
      refine ⟨Nat.find hex + 1 + rootDist hv A, ?_, ?_⟩
      · -- bound: the j→B chain and the A→root chain are disjoint node sets
        have hinj1 : Set.InjOn (fun t => (par adj)^[t] j)
            ↑(Finset.range (Nat.find hex + 1)) := by
          intro a ha b hb hab
          simp only [Finset.coe_range, Set.mem_Iio] at ha hb
          dsimp only at hab
          by_contra hne
          have hkey : ∀ x y : ℕ, x < y → y < Nat.find hex + 1 →
              (par adj)^[x] j = (par adj)^[y] j → False := by
            intro x y hxy hyb heq
            have hu : (par adj)^[Nat.find hex - y + x] j = B := by
              have e1 : (par adj)^[Nat.find hex - y + x] j =
                  (par adj)^[Nat.find hex - y] ((par adj)^[x] j) :=
                Function.iterate_add_apply _ _ _ _
              rw [e1, heq, ← Function.iterate_add_apply]
              have e2 : Nat.find hex - y + y = Nat.find hex := by omega
              rw [e2]
              exact hmspec
            exact absurd hu (Nat.find_min hex (by omega))
          rcases Nat.lt_or_ge a b with hlt | hge
          · exact hkey a b hlt hb hab
          · exact hkey b a (by omega) ha hab.symm
        have hinj2 : Set.InjOn (fun s => (par adj)^[s] A)
            ↑(Finset.range (rootDist hv A + 1)) := by
          intro a ha b hb hab
          simp only [Finset.coe_range, Set.mem_Iio] at ha hb
          dsimp only at hab
          by_contra hne
          rcases Nat.lt_or_ge a b with hlt | hge
          · exact chain_inj hv A hlt (by omega) hab
          · exact chain_inj hv A (show b < a by omega) (by omega) hab.symm
        have hdisj : Disjoint
            ((Finset.range (Nat.find hex + 1)).image (fun t => (par adj)^[t] j))
            ((Finset.range (rootDist hv A + 1)).image (fun s => (par adj)^[s] A)) := by
          rw [Finset.disjoint_left]
          intro x hx1 hx2
          rw [Finset.mem_image] at hx1 hx2
          obtain ⟨t, ht, hxt⟩ := hx1
          obtain ⟨sn, hs, hxs⟩ := hx2
          rw [Finset.mem_range] at ht hs
          apply hnBA
          refine ⟨(Nat.find hex - t) + sn, ?_⟩
          have h1 : (par adj)^[Nat.find hex - t] ((par adj)^[t] j) = B := by
            rw [← Function.iterate_add_apply]
            have : Nat.find hex - t + t = Nat.find hex := by omega
            rw [this]
            exact hmspec
          rw [hxt] at h1
          rw [Function.iterate_add_apply, hxs, h1]
        have hcard :
            (Nat.find hex + 1) + (rootDist hv A + 1) ≤ K + 1 := by
          have he1 : ((Finset.range (Nat.find hex + 1)).image
              (fun t => (par adj)^[t] j)).card = Nat.find hex + 1 := by
            rw [Finset.card_image_of_injOn hinj1, Finset.card_range]
          have he2 : ((Finset.range (rootDist hv A + 1)).image
              (fun s => (par adj)^[s] A)).card = rootDist hv A + 1 := by
            rw [Finset.card_image_of_injOn hinj2, Finset.card_range]
          have hunion := Finset.card_union_of_disjoint hdisj
          have hle : (((Finset.range (Nat.find hex + 1)).image
              (fun t => (par adj)^[t] j)) ∪
              ((Finset.range (rootDist hv A + 1)).image
                (fun s => (par adj)^[s] A))).card ≤ K + 1 := by
            have := Finset.card_le_univ
              ((((Finset.range (Nat.find hex + 1)).image
                (fun t => (par adj)^[t] j)) ∪
                ((Finset.range (rootDist hv A + 1)).image
                  (fun s => (par adj)^[s] A))))
            rwa [Fintype.card_fin] at this
          omega
        omega
      · have hsplit : Nat.find hex + 1 + rootDist hv A =
            rootDist hv A + (Nat.find hex + 1) := by omega
        rw [hsplit, Function.iterate_add_apply, hstepB, hAeq]
        exact rootDist_spec hv A
    · have hjeq : ∀ t : ℕ, (par (fun i j => if i = j then 1
          else if j = B then (if i = A then 1 else 0)
          else fillDiag adj 0 i j))^[t] j = (par adj)^[t] j := by
        intro t
        induction t with
        | zero => rfl
        | succ t iht =>
            rw [Function.iterate_succ_apply', Function.iterate_succ_apply', iht]
            apply hparM_eq
            intro hEq
            exact hBj ⟨t, hEq⟩
      exact ⟨K, le_rfl, by rw [hjeq K]; exact hv.2.2.2.2 j⟩
  refine ⟨h1, h2, h3, h4, ?_⟩
  intro j
  obtain ⟨n, hn, h0⟩ := hchain j
  exact after_root_cols h1 h2 h3 h0 hn

end ModifyTreeValid

/-- C2: on a valid tree with its ancestry matrix, `_modify_tree(adj, anc, A, B)`
(for `A ≠ B`, `B ≠ root`) returns a matrix that again satisfies all the
adjacency invariants — 0/1 entries, all-1 diagonal, every non-root column
summing to exactly 2, exactly one column summing to 1, and every node
reachable from the root — and, being a pure function of copies, leaves both
input matrices unchanged. -/
theorem c2_modify_tree_preserves_invariants {K : ℕ} {adj anc : Adjm K}
    {A B : Fin (K + 1)} (hv : validAdj adj) (hanc : isAncestryOf anc adj)
    (hAB : A ≠ B) (hB : B ≠ 0) :
    validAdj (modify_tree adj anc A B) ∧
      ∃! j, colSum (modify_tree adj anc A B) j = 1 := by
  have hvm : validAdj (modify_tree adj anc A B) := by
    by_cases hcond : fillDiag anc 0 B A ≠ 0
    · have hBA : ancP adj B A := by
        have hc := hcond
        unfold fillDiag at hc
        rw [if_neg (show ¬ B = A from fun h => hAB h.symm)] at hc
        exact (anc_entry_iff hv hanc B A).mp hc
      rw [modify_tree_swap_eq hv hanc hAB hB hBA]
      exact valid_swap_relabel hv (ancP_A_ne_zero hv hB hBA) hB
    · have hnBA : ¬ ancP adj B A := by
        intro h
        apply hcond
        unfold fillDiag
        rw [if_neg (show ¬ B = A from fun h => hAB h.symm)]
        exact (anc_entry_iff hv hanc B A).mpr h
      rw [modify_tree_move_eq adj anc A B hcond]
      exact valid_move hv hAB hB hnBA
  refine ⟨hvm, 0, hvm.2.2.1, ?_⟩
  intro y hy
  by_contra hne
  have := hvm.2.2.2.1 y hne
  omega

theorem c2_witness :
    (validAdj c2adj ∧ isAncestryOf c2anc c2adj ∧
      (0 : Fin 3) ≠ 2 ∧ (2 : Fin 3) ≠ 0) ∧
    (validAdj (modify_tree c2adj c2anc 0 2) ∧
      ∃! j, colSum (modify_tree c2adj c2anc 0 2) j = 1) :=
  ⟨⟨by decide, by decide, by decide, by decide⟩,
    c2_modify_tree_preserves_invariants (by decide) (by decide)
      (by decide) (by decide)⟩



/-! ### C7: the deterministic tree builder -/

section Builder

variable {Nc : ℕ}

lemma mem_descJs {I J : Fin (Nc + 2)} : J ∈ descJs I ↔ J < I := by
  unfold descJs
  rw [List.mem_reverse, List.mem_filter]
  simp [List.mem_finRange]

lemma descJs_sorted (I : Fin (Nc + 2)) : (descJs I).Pairwise (· > ·) := by
  unfold descJs
  rw [List.pairwise_reverse]
  exact List.Pairwise.filter _ (List.pairwise_lt_finRange (Nc + 2))

lemma rowLoop_error_iff (rel : Fin (Nc + 2) → Fin (Nc + 2) → Fin 5)
    (I : Fin (Nc + 2)) :
    ∀ (Js : List (Fin (Nc + 2))) (adj : Adjm (Nc + 1)) (placed : Bool),
      (∃ e, rowLoop rel I Js adj placed = .error e) ↔
        ∃ J ∈ Js, rel I J ≠ Models.B_A ∧ rel I J ≠ Models.diff_branches := by
  intro Js
  induction Js with
  | nil =>
      intro adj placed
      constructor
      · intro ⟨e, he⟩
        exact Except.noConfusion he
      · intro ⟨J, hJ, _⟩
        exact absurd hJ (List.not_mem_nil J)
  | cons J rest ih =>
      intro adj placed
      show (∃ e, (if rel I J = Models.B_A then
          (if placed = false then
            rowLoop rel I rest (fun i j => if i = J ∧ j = I then 1 else adj i j) true
          else rowLoop rel I rest adj placed)
        else if rel I J = Models.diff_branches then rowLoop rel I rest adj placed
        else .error (.unexpectedRelation I.val J.val)) = .error e) ↔ _
      by_cases h1 : rel I J = Models.B_A
      · rw [if_pos h1]
        by_cases h2 : placed = false
        · rw [if_pos h2, ih]
          constructor
          · intro ⟨J', hJ', hbad⟩
            exact ⟨J', List.mem_cons_of_mem J hJ', hbad⟩
          · intro ⟨J', hJ', hbad⟩
            rcases List.mem_cons.mp hJ' with hh | hh
            · exact absurd h1 (hh ▸ hbad.1)
            · exact ⟨J', hh, hbad⟩
        · rw [if_neg h2, ih]
          constructor
          · intro ⟨J', hJ', hbad⟩
            exact ⟨J', List.mem_cons_of_mem J hJ', hbad⟩
          · intro ⟨J', hJ', hbad⟩
            rcases List.mem_cons.mp hJ' with hh | hh
            · exact absurd h1 (hh ▸ hbad.1)
            · exact ⟨J', hh, hbad⟩
      · rw [if_neg h1]
        by_cases h2 : rel I J = Models.diff_branches
        · rw [if_pos h2, ih]
          constructor
          · intro ⟨J', hJ', hbad⟩
            exact ⟨J', List.mem_cons_of_mem J hJ', hbad⟩
          · intro ⟨J', hJ', hbad⟩
            rcases List.mem_cons.mp hJ' with hh | hh
            · exact absurd h2 (hh ▸ hbad.2)
            · exact ⟨J', hh, hbad⟩
        · rw [if_neg h2]
          constructor
          · intro _
            exact ⟨J, List.mem_cons_self J rest, h1, h2⟩
          · intro _
            exact ⟨.unexpectedRelation I.val J.val, rfl⟩

lemma rowsLoop_error_iff (rel : Fin (Nc + 2) → Fin (Nc + 2) → Fin 5) :
    ∀ (Is : List (Fin (Nc + 2))) (adj : Adjm (Nc + 1)),
      (∃ e, rowsLoop rel Is adj = .error e) ↔
        ∃ I ∈ Is, ∃ J ∈ descJs I,
          rel I J ≠ Models.B_A ∧ rel I J ≠ Models.diff_branches := by
  intro Is
  induction Is with
  | nil =>
      intro adj
      constructor
      · intro ⟨e, he⟩
        exact Except.noConfusion he
      · intro ⟨I, hI, _⟩
        exact absurd hI (List.not_mem_nil I)
  | cons I rest ih =>
      intro adj
      show (∃ e, (rowLoop rel I (descJs I) adj false >>= rowsLoop rel rest) = .error e) ↔ _
      cases hro : rowLoop rel I (descJs I) adj false with
      | error e0 =>
          have hbad := (rowLoop_error_iff rel I (descJs I) adj false).mp ⟨e0, hro⟩
          constructor
          · intro _
            exact ⟨I, List.mem_cons_self I rest, hbad⟩
          · intro _
            exact ⟨e0, rfl⟩
      | ok adj1 =>
          have hgood : ¬ ∃ J ∈ descJs I,
              rel I J ≠ Models.B_A ∧ rel I J ≠ Models.diff_branches := by
            intro hb
            obtain ⟨e, he⟩ := (rowLoop_error_iff rel I (descJs I) adj false).mpr hb
            rw [hro] at he
            exact Except.noConfusion he
          have hbind : (Except.ok adj1 >>= rowsLoop rel rest :
              Except CannotBuildTreeException (Adjm (Nc + 1))) =
              rowsLoop rel rest adj1 := rfl
          rw [hbind, ih adj1]
          constructor
          · intro ⟨I', hI', hb⟩
            exact ⟨I', List.mem_cons_of_mem I hI', hb⟩
          · intro ⟨I', hI', hb⟩
            rcases List.mem_cons.mp hI' with hh | hh
            · exact absurd (hh ▸ hb) hgood
            · exact ⟨I', hh, hb⟩

/-- C7's raise condition, phrased exactly as the claim does, matches the
code. -/
lemma make_adj_error_iff (rel : Fin (Nc + 2) → Fin (Nc + 2) → Fin 5) :
    (∃ e, make_adj rel = .error e) ↔ raiseCond rel := by
  unfold make_adj raiseCond
  by_cases h0 : rel 1 0 ≠ Models.B_A
  · rw [if_pos h0]
    constructor
    · intro _
      exact Or.inl h0
    · intro _
      exact ⟨.firstSubcloneNotChild, rfl⟩
  · rw [if_neg h0]
    rw [rowsLoop_error_iff]
    constructor
    · intro ⟨I, hI, J, hJ, hbad⟩
      rw [List.mem_filter] at hI
      refine Or.inr ⟨I, J, ?_, mem_descJs.mp hJ, hbad⟩
      have := hI.2
      simpa using this
    · intro hc
      rcases hc with hc | ⟨I, J, hI2, hJI, hbad⟩
      · exact absurd hc h0
      · refine ⟨I, ?_, J, mem_descJs.mpr hJI, hbad⟩
        rw [List.mem_filter]
        exact ⟨List.mem_finRange I, by simpa using hI2⟩

end Builder


section BuilderOk

variable {Nc : ℕ}

lemma diff_ne_BA : Models.diff_branches ≠ Models.B_A := by decide

lemma rowLoop_ok_placed (rel : Fin (Nc + 2) → Fin (Nc + 2) → Fin 5)
    (I : Fin (Nc + 2)) :
    ∀ (Js : List (Fin (Nc + 2))) (adj : Adjm (Nc + 1)),
      (∀ J ∈ Js, rel I J = Models.B_A ∨ rel I J = Models.diff_branches) →
      rowLoop rel I Js adj true = .ok adj := by
  intro Js
  induction Js with
  | nil => intro adj _; rfl
  | cons J rest ih =>
      intro adj hgood
      show (if rel I J = Models.B_A then
          (if true = false then
            rowLoop rel I rest (fun i j => if i = J ∧ j = I then 1 else adj i j) true
          else rowLoop rel I rest adj true)
        else if rel I J = Models.diff_branches then rowLoop rel I rest adj true
        else .error (.unexpectedRelation I.val J.val)) = .ok adj
      have hrest := fun J' hJ' => hgood J' (List.mem_cons_of_mem J hJ')
      rcases hgood J (List.mem_cons_self J rest) with h | h
      · rw [if_pos h, if_neg (by simp)]
        exact ih adj hrest
      · have hne : rel I J ≠ Models.B_A := by
          intro hc
          rw [h] at hc
          exact diff_ne_BA hc
        rw [if_neg hne, if_pos h]
        exact ih adj hrest

lemma rowLoop_ok_false (rel : Fin (Nc + 2) → Fin (Nc + 2) → Fin 5)
    (I : Fin (Nc + 2)) :
    ∀ (Js : List (Fin (Nc + 2))) (adj : Adjm (Nc + 1)),
      (∀ J ∈ Js, rel I J = Models.B_A ∨ rel I J = Models.diff_branches) →
      rowLoop rel I Js adj false = .ok
        (match Js.find? (fun J => decide (rel I J = Models.B_A)) with
          | some J0 => fun i j => if i = J0 ∧ j = I then 1 else adj i j
          | none => adj) := by
  intro Js
  induction Js with
  | nil => intro adj _; rfl
  | cons J rest ih =>
      intro adj hgood
      have hrest := fun J' hJ' => hgood J' (List.mem_cons_of_mem J hJ')
      show (if rel I J = Models.B_A then
          (if false = false then
            rowLoop rel I rest (fun i j => if i = J ∧ j = I then 1 else adj i j) true
          else rowLoop rel I rest adj false)
        else if rel I J = Models.diff_branches then rowLoop rel I rest adj false
        else .error (.unexpectedRelation I.val J.val)) = _
      rcases hgood J (List.mem_cons_self J rest) with h | h
      · have hfind : (J :: rest).find? (fun J => decide (rel I J = Models.B_A)) =
            some J := List.find?_cons_of_pos rest (by simp [h])
        rw [hfind, if_pos h, if_pos rfl]
        exact rowLoop_ok_placed rel I rest _ hrest
      · have hne : rel I J ≠ Models.B_A := by
          intro hc
          rw [h] at hc
          exact diff_ne_BA hc
        have hfind : (J :: rest).find? (fun J => decide (rel I J = Models.B_A)) =
            rest.find? (fun J => decide (rel I J = Models.B_A)) :=
          List.find?_cons_of_neg rest (by simp [hne])
        rw [hfind, if_neg hne, if_pos h]
        exact ih adj hrest

lemma rowsLoop_ok_char (rel : Fin (Nc + 2) → Fin (Nc + 2) → Fin 5) :
    ∀ (Is : List (Fin (Nc + 2))) (adj : Adjm (Nc + 1)),
      (∀ I ∈ Is, ∀ J ∈ descJs I,
        rel I J = Models.B_A ∨ rel I J = Models.diff_branches) →
      rowsLoop rel Is adj = .ok (fun i j =>
        if j ∈ Is then
          (match (descJs j).find? (fun J => decide (rel j J = Models.B_A)) with
            | some J0 => if i = J0 then 1 else adj i j
            | none => adj i j)
        else adj i j) := by
  intro Is
  induction Is with
  | nil =>
      intro adj _
      have hfn : ∀ i j : Fin (Nc + 2), (if j ∈ ([] : List (Fin (Nc + 2))) then
          (match (descJs j).find? (fun J => decide (rel j J = Models.B_A)) with
            | some J0 => if i = J0 then (1 : ℕ) else adj i j
            | none => adj i j) else adj i j) = adj i j := by
        intro i j
        rw [if_neg (List.not_mem_nil j)]
      show Except.ok adj = _
      exact congrArg Except.ok (funext fun i => funext fun j => (hfn i j).symm)
  | cons I rest ih =>
      intro adj hgood
      have hrest := fun I' hI' => hgood I' (List.mem_cons_of_mem I hI')
      show (rowLoop rel I (descJs I) adj false >>= rowsLoop rel rest) = _
      rw [rowLoop_ok_false rel I (descJs I) adj (hgood I (List.mem_cons_self I rest))]
      cases hf : (descJs I).find? (fun J => decide (rel I J = Models.B_A)) with
      | some J0 =>
          have hbind : (Except.ok (fun i j => if i = J0 ∧ j = I then 1 else adj i j) >>=
              rowsLoop rel rest :
              Except CannotBuildTreeException (Adjm (Nc + 1))) =
              rowsLoop rel rest (fun i j => if i = J0 ∧ j = I then 1 else adj i j) := rfl
          rw [hbind, ih _ hrest]
          congr 1
          funext i j
          by_cases hjI : j = I
          · subst hjI
            rw [hf]
            dsimp only
            by_cases hjr : j ∈ rest
            · rw [if_pos hjr, if_pos (List.mem_cons_self j rest)]
              by_cases hiJ : i = J0
              · rw [if_pos hiJ, if_pos hiJ]
              · rw [if_neg hiJ, if_neg hiJ,
                  if_neg (by intro hh; exact hiJ hh.1)]
            · rw [if_neg hjr, if_pos (List.mem_cons_self j rest)]
              by_cases hiJ : i = J0
              · rw [if_pos (⟨hiJ, rfl⟩ : i = J0 ∧ j = j), if_pos hiJ]
              · rw [if_neg (by intro hh; exact hiJ hh.1), if_neg hiJ]
          · have hentry : (if i = J0 ∧ j = I then (1 : ℕ) else adj i j) = adj i j :=
              if_neg (by intro hh; exact hjI hh.2)
            by_cases hjr : j ∈ rest
            · rw [if_pos hjr, if_pos (List.mem_cons_of_mem I hjr)]
              cases hfj : (descJs j).find? (fun J => decide (rel j J = Models.B_A)) with
              | some J1 =>
                  dsimp only
                  by_cases hiJ : i = J1
                  · rw [if_pos hiJ, if_pos hiJ]
                  · rw [if_neg hiJ, if_neg hiJ, hentry]
              | none =>
                  dsimp only
                  exact hentry
            · rw [if_neg hjr, hentry,
                if_neg (by
                  intro hh
                  rcases List.mem_cons.mp hh with h | h
                  · exact hjI h
                  · exact hjr h)]
      | none =>
          have hbind : (Except.ok adj >>= rowsLoop rel rest :
              Except CannotBuildTreeException (Adjm (Nc + 1))) =
              rowsLoop rel rest adj := rfl
          rw [hbind, ih _ hrest]
          congr 1
          funext i j
          by_cases hjI : j = I
          · subst hjI
            rw [hf]
            dsimp only
            by_cases hjr : j ∈ rest
            · rw [if_pos hjr, if_pos (List.mem_cons_self j rest)]
            · rw [if_neg hjr, if_pos (List.mem_cons_self j rest)]
          · by_cases hjr : j ∈ rest
            · rw [if_pos hjr, if_pos (List.mem_cons_of_mem I hjr)]
            · rw [if_neg hjr,
                if_neg (by
                  intro hh
                  rcases List.mem_cons.mp hh with h | h
                  · exact hjI h
                  · exact hjr h)]

lemma make_adj_ok_char (rel : Fin (Nc + 2) → Fin (Nc + 2) → Fin 5)
    (h0 : rel 1 0 = Models.B_A)
    (hgood : ∀ I : Fin (Nc + 2), 2 ≤ I.val → ∀ J, J < I →
      rel I J = Models.B_A ∨ rel I J = Models.diff_branches) :
    make_adj rel = .ok (fun i j =>
      if 2 ≤ j.val then
        (match (descJs j).find? (fun J => decide (rel j J = Models.B_A)) with
          | some J0 => if i = J0 then 1 else initAdj i j
          | none => initAdj i j)
      else initAdj i j) := by
  unfold make_adj
  rw [if_neg (by intro hc; exact hc h0)]
  rw [rowsLoop_ok_char rel _ initAdj (by
    intro I hI J hJ
    rw [List.mem_filter] at hI
    exact hgood I (by simpa using hI.2) J (mem_descJs.mp hJ))]
  congr 1
  funext i j
  by_cases h2 : 2 ≤ j.val
  · rw [if_pos (by rw [List.mem_filter]; exact ⟨List.mem_finRange j, by simpa using h2⟩),
      if_pos h2]
  · rw [if_neg (by
      intro hh
      rw [List.mem_filter] at hh
      exact h2 (by simpa using hh.2)), if_neg h2]

end BuilderOk


section BuilderValid

variable {Nc : ℕ}

lemma sum_one_indicator {n : ℕ} (a : Fin n) :
    ∑ i, (if i = a then (1 : ℕ) else 0) = 1 := by
  rw [Finset.sum_ite_eq' Finset.univ a (fun _ => (1 : ℕ)),
    if_pos (Finset.mem_univ a)]

lemma sum_two_indicator {n : ℕ} (a b : Fin n) (hab : a ≠ b) :
    ∑ i, (if i = a then (1 : ℕ) else if i = b then 1 else 0) = 2 := by
  rw [← Finset.sum_erase_add _ _ (Finset.mem_univ a)]
  have h1 : (if a = a then (1 : ℕ) else if a = b then 1 else 0) = 1 := if_pos rfl
  rw [h1]
  have h2 : ∑ i ∈ Finset.univ.erase a,
      (if i = a then (1 : ℕ) else if i = b then 1 else 0) =
      ∑ i ∈ Finset.univ.erase a, (if i = b then (1 : ℕ) else 0) := by
    apply Finset.sum_congr rfl
    intro i hi
    rw [Finset.mem_erase] at hi
    rw [if_neg hi.1]
  rw [h2, Finset.sum_ite_eq' (Finset.univ.erase a) b (fun _ => (1 : ℕ)),
    if_pos (Finset.mem_erase.mpr ⟨fun h => hab h.symm, Finset.mem_univ b⟩)]

lemma fin_one_ne_zero : (1 : Fin (Nc + 2)) ≠ 0 := by
  apply Fin.ne_of_val_ne
  rw [Fin.val_one, Fin.val_zero]
  omega

lemma fin_zero_ne_one : (0 : Fin (Nc + 2)) ≠ 1 := fun h => fin_one_ne_zero h.symm

/-- Parent indices strictly below child indices force every parent chain to
hit the root. -/
lemma toposorted_chain {M : Adjm K} (h1 : ∀ i j, M i j ≤ 1)
    (h2 : ∀ i, M i i = 1) (h3 : colSum M 0 = 1)
    (htopo : ∀ j : Fin (K + 1), j ≠ 0 → par M j < j) :
    ∀ j : Fin (K + 1), (par M)^[K] j = 0 := by
  have H : ∀ m : ℕ, ∀ j : Fin (K + 1), j.val ≤ m →
      ∃ n, n ≤ m ∧ (par M)^[n] j = 0 := by
    intro m
    induction m with
    | zero =>
        intro j hj
        have hj0 : j = 0 := by
          apply Fin.ext
          rw [Fin.val_zero]
          omega
        exact ⟨0, le_refl 0, by rw [hj0]; rfl⟩
    | succ m ih =>
        intro j hj
        by_cases hj0 : j = 0
        · exact ⟨0, by omega, by rw [hj0]; rfl⟩
        · have hlt : (par M j).val < j.val := htopo j hj0
          obtain ⟨n, hn, h0⟩ := ih (par M j) (by omega)
          exact ⟨n + 1, by omega, by rw [Function.iterate_succ_apply, h0]⟩
  intro j
  obtain ⟨n, hn, h0⟩ := H K j (by omega)
  exact after_root_cols h1 h2 h3 h0 hn

/-- The builder's output is a valid tree when every row can be placed. -/
lemma make_adj_valid (rel : Fin (Nc + 2) → Fin (Nc + 2) → Fin 5)
    (h0 : rel 1 0 = Models.B_A)
    (hgood : ∀ I : Fin (Nc + 2), 2 ≤ I.val → ∀ J, J < I →
      rel I J = Models.B_A ∨ rel I J = Models.diff_branches)
    (hplace : placeable rel) :
    ∀ a, make_adj rel = .ok a → validAdj a := by
  intro a ha
  rw [make_adj_ok_char rel h0 hgood] at ha
  injection ha with ha
  subst ha
  have hfind : ∀ j : Fin (Nc + 2), 2 ≤ j.val →
      ∃ J0, (descJs j).find? (fun J => decide (rel j J = Models.B_A)) = some J0 ∧
        J0 < j ∧ rel j J0 = Models.B_A := by
    intro j h2
    obtain ⟨J, hJlt, hJrel⟩ := hplace j h2
    cases hf : (descJs j).find? (fun J => decide (rel j J = Models.B_A)) with
    | none =>
        exfalso
        have := List.find?_eq_none.mp hf J (mem_descJs.mpr hJlt)
        simp [hJrel] at this
    | some J0 =>
        have hmem := List.find?_some hf
        have hmem2 := List.mem_of_find?_eq_some hf
        exact ⟨J0, rfl, mem_descJs.mp hmem2, by simpa using hmem⟩
  have hinit_le : ∀ i j : Fin (Nc + 2), @initAdj Nc i j ≤ 1 := by
    intro i j
    unfold initAdj
    split_ifs <;> omega
  have hcol0 : ∀ i : Fin (Nc + 2), @initAdj Nc i 0 =
      (if i = 0 then 1 else 0) := by
    intro i
    unfold initAdj
    by_cases hi : i = 0
    · rw [if_pos hi, if_pos hi]
    · rw [if_neg hi, if_neg hi,
        if_neg (by intro hh; exact hi hh.1)]
  have hcol1 : ∀ i : Fin (Nc + 2), @initAdj Nc i 1 =
      (if i = 1 then 1 else if i = 0 then 1 else 0) := by
    intro i
    unfold initAdj
    by_cases hi : i = 1
    · rw [if_pos hi, if_pos hi]
    · rw [if_neg hi, if_neg hi]
      by_cases hi0 : i = 0
      · rw [if_pos ⟨hi0, rfl⟩, if_pos hi0]
      · rw [if_neg (by intro hh; exact hi0 hh.1), if_neg hi0]
  have hcolhi : ∀ i j : Fin (Nc + 2), 2 ≤ j.val →
      @initAdj Nc i j = (if i = j then 1 else 0) := by
    intro i j h2
    unfold initAdj
    by_cases hi : i = j
    · rw [if_pos hi, if_pos hi]
    · rw [if_neg hi, if_neg hi,
        if_neg (by
          intro hh
          have h21 := hh.2
          rw [h21, Fin.val_one] at h2
          omega)]
  have h1e : ∀ i j : Fin (Nc + 2),
      (if 2 ≤ j.val then
        (match (descJs j).find? (fun J => decide (rel j J = Models.B_A)) with
          | some J0 => if i = J0 then (1 : ℕ) else initAdj i j
          | none => initAdj i j)
      else initAdj i j) ≤ 1 := by
    intro i j
    by_cases h2 : 2 ≤ j.val
    · rw [if_pos h2]
      cases hc : (descJs j).find? (fun J => decide (rel j J = Models.B_A)) with
      | some J0 =>
          dsimp only
          by_cases hi : i = J0
          · rw [if_pos hi]
          · rw [if_neg hi]
            exact hinit_le i j
      | none =>
          exact hinit_le i j
    · rw [if_neg h2]
      exact hinit_le i j
  have h2d : ∀ i : Fin (Nc + 2),
      (if 2 ≤ i.val then
        (match (descJs i).find? (fun J => decide (rel i J = Models.B_A)) with
          | some J0 => if i = J0 then (1 : ℕ) else initAdj i i
          | none => initAdj i i)
      else initAdj i i) = 1 := by
    intro i
    by_cases h2 : 2 ≤ i.val
    · rw [if_pos h2]
      obtain ⟨J0, hf, hlt, hrel⟩ := hfind i h2
      rw [hf]
      dsimp only
      have hne : ¬ i = J0 := by
        intro hh
        subst hh
        exact lt_irrefl i hlt
      rw [if_neg hne, hcolhi i i h2, if_pos rfl]
    · rw [if_neg h2]
      unfold initAdj
      rw [if_pos rfl]
  have h3 : colSum (fun i j : Fin (Nc + 2) =>
      if 2 ≤ j.val then
        (match (descJs j).find? (fun J => decide (rel j J = Models.B_A)) with
          | some J0 => if i = J0 then (1 : ℕ) else initAdj i j
          | none => initAdj i j)
      else initAdj i j) 0 = 1 := by
    unfold colSum
    refine (Finset.sum_congr rfl ?_).trans (sum_one_indicator 0)
    intro i _
    dsimp only
    rw [if_neg (show ¬ 2 ≤ (0 : Fin (Nc + 2)).val by rw [Fin.val_zero]; omega)]
    exact hcol0 i
  have h4 : ∀ j : Fin (Nc + 2), j ≠ 0 → colSum (fun i j : Fin (Nc + 2) =>
      if 2 ≤ j.val then
        (match (descJs j).find? (fun J => decide (rel j J = Models.B_A)) with
          | some J0 => if i = J0 then (1 : ℕ) else initAdj i j
          | none => initAdj i j)
      else initAdj i j) j = 2 := by
    intro j hj
    unfold colSum
    by_cases h2 : 2 ≤ j.val
    · obtain ⟨J0, hf, hlt, hrel⟩ := hfind j h2
      have hne : J0 ≠ j := by
        intro hh
        subst hh
        exact lt_irrefl J0 hlt
      refine (Finset.sum_congr rfl ?_).trans (sum_two_indicator J0 j hne)
      intro i _
      dsimp only
      rw [if_pos h2, hf]
      dsimp only
      by_cases hi : i = J0
      · rw [if_pos hi, if_pos hi]
      · rw [if_neg hi, if_neg hi, hcolhi i j h2]
    · have hj1 : j = 1 := by
        apply Fin.ext
        rw [Fin.val_one]
        have hlt := j.isLt
        have hne : j.val ≠ 0 := fun hh => hj (by apply Fin.ext; rw [Fin.val_zero]; omega)
        omega
      subst hj1
      refine (Finset.sum_congr rfl ?_).trans (sum_two_indicator 1 0 fin_one_ne_zero)
      intro i _
      dsimp only
      rw [if_neg h2]
      exact hcol1 i
  refine ⟨h1e, h2d, h3, h4, ?_⟩
  apply toposorted_chain h1e h2d h3
  intro j hj
  by_cases h2 : 2 ≤ j.val
  · obtain ⟨J0, hf, hlt, hrel⟩ := hfind j h2
    have hne : J0 ≠ j := by
      intro hh
      subst hh
      exact lt_irrefl J0 hlt
    have hone : (if 2 ≤ j.val then
        (match (descJs j).find? (fun J => decide (rel j J = Models.B_A)) with
          | some J1 => if J0 = J1 then (1 : ℕ) else initAdj J0 j
          | none => initAdj J0 j)
      else initAdj J0 j) = 1 := by
      rw [if_pos h2, hf]
      dsimp only
      rw [if_pos rfl]
    have hp := par_unique_cols h1e h2d h4 hj hne hone
    rw [← hp]
    exact hlt
  · have hj1 : j = 1 := by
      apply Fin.ext
      rw [Fin.val_one]
      have hlt := j.isLt
      have hne : j.val ≠ 0 := fun hh => hj (by apply Fin.ext; rw [Fin.val_zero]; omega)
      omega
    subst hj1
    have hone : (if 2 ≤ (1 : Fin (Nc + 2)).val then
        (match (descJs 1).find? (fun J => decide (rel 1 J = Models.B_A)) with
          | some J1 => if (0 : Fin (Nc + 2)) = J1 then (1 : ℕ) else @initAdj Nc 0 1
          | none => @initAdj Nc 0 1)
      else @initAdj Nc 0 1) = 1 := by
      rw [if_neg h2, hcol1 0, if_neg fin_zero_ne_one, if_pos rfl]
    have hp := par_unique_cols h1e h2d h4 hj fin_zero_ne_one hone
    rw [← hp]
    show (0 : Fin (Nc + 2)).val < (1 : Fin (Nc + 2)).val
    rw [Fin.val_zero, Fin.val_one]
    omega

end BuilderValid


/-! ### C7: round trip — `make_adj` on the relations of a topologically
sorted tree rebuilds that tree -/

section BuilderRoundTrip

variable {Nc : ℕ} {tadj : Adjm (Nc + 1)}

lemma iterate_par_le (hv : validAdj tadj) (ht : toposorted tadj) :
    ∀ (n : ℕ) (j : Fin (Nc + 2)), (par tadj)^[n] j ≤ j := by
  intro n
  induction n with
  | zero => intro j; exact le_refl j
  | succ n ih =>
      intro j
      rw [Function.iterate_succ_apply']
      by_cases h0 : (par tadj)^[n] j = 0
      · rw [h0, par_root hv]
        exact Fin.zero_le j
      · exact le_trans (le_of_lt (ht _ h0)) (ih j)

lemma ancP_le_of_topo (hv : validAdj tadj) (ht : toposorted tadj)
    {i j : Fin (Nc + 2)} (h : ancP tadj i j) : i ≤ j := by
  obtain ⟨n, hn⟩ := h
  rw [← hn]
  exact iterate_par_le hv ht n j

lemma iterate_par_le_par (hv : validAdj tadj) (ht : toposorted tadj)
    {n : ℕ} (hn : 1 ≤ n) (j : Fin (Nc + 2)) :
    (par tadj)^[n] j ≤ par tadj j := by
  obtain ⟨m, rfl⟩ : ∃ m, n = m + 1 := ⟨n - 1, by omega⟩
  rw [Function.iterate_succ_apply]
  exact iterate_par_le hv ht m (par tadj j)

/-- Entries of a valid tree column: the diagonal and the parent. -/
lemma entry_char (hv : validAdj tadj) {j : Fin (Nc + 2)} (hj : j ≠ 0)
    (i : Fin (Nc + 2)) :
    tadj i j = if i = j then 1 else if i = par tadj j then 1 else 0 := by
  by_cases hij : i = j
  · rw [if_pos hij, hij]
    exact hv.2.1 j
  · rw [if_neg hij]
    by_cases hip : i = par tadj j
    · rw [if_pos hip, hip]
      exact (par_spec hv hj).2
    · rw [if_neg hip]
      by_contra hne
      have h1 : tadj i j = 1 := by have := hv.1 i j; omega
      exact hip (par_unique hv hj hij h1)

/-- On a strictly descending list, `find?` returns the largest element
satisfying the predicate. -/
lemma find?_first_gt {α : Type _} [LinearOrder α] (p : α → Bool) (x : α)
    (hpx : p x = true) :
    ∀ l : List α, l.Pairwise (· > ·) → x ∈ l →
      (∀ y ∈ l, x < y → p y = false) → l.find? p = some x := by
  intro l
  induction l with
  | nil => intro _ hx _; exact absurd hx (List.not_mem_nil x)
  | cons a l ih =>
      intro hl hx hmax
      rw [List.pairwise_cons] at hl
      rcases List.mem_cons.mp hx with h | h
      · subst h
        exact List.find?_cons_of_pos l hpx
      · have hax : x < a := hl.1 x h
        have hpa : p a = false := hmax a (List.mem_cons_self a l) hax
        rw [List.find?_cons_of_neg l (by rw [hpa]; exact Bool.false_ne_true)]
        exact ih hl.2 h (fun y hy hxy => hmax y (List.mem_cons_of_mem a hy) hxy)

/-- `relFromTree` marks `[I][J]` as `B_A` exactly when `J` is an ancestor
of `I`. -/
lemma relFromTree_BA_iff (hv : validAdj tadj) {I J : Fin (Nc + 2)}
    (hne : J ≠ I) :
    relFromTree tadj I J = Models.B_A ↔ ancP tadj J I := by
  unfold relFromTree
  rw [if_neg (fun hh => hne hh.symm)]
  by_cases hr : reachesB tadj (Nc + 1) J I = true
  · rw [if_pos hr]
    exact ⟨fun _ => hasPath_to_ancP hv (reachesB_to_hasPath tadj hr), fun _ => rfl⟩
  · rw [if_neg hr]
    constructor
    · intro hBA
      exfalso
      by_cases hr2 : reachesB tadj (Nc + 1) I J = true
      · rw [if_pos hr2] at hBA
        exact absurd hBA (by decide)
      · rw [if_neg hr2] at hBA
        exact absurd hBA (by decide)
    · intro hanc
      exact absurd ((hasPath_iff_reachesB hv).mp (ancP_to_hasPath hv hanc)) hr

lemma relFromTree_good (hv : validAdj tadj) (ht : toposorted tadj) :
    ∀ I : Fin (Nc + 2), 2 ≤ I.val → ∀ J, J < I →
      relFromTree tadj I J = Models.B_A ∨
      relFromTree tadj I J = Models.diff_branches := by
  intro I _ J hJ
  have hne : ¬ I = J := fun hh => absurd hh.symm (ne_of_lt hJ)
  by_cases hr1 : reachesB tadj (Nc + 1) J I = true
  · left
    unfold relFromTree
    rw [if_neg hne, if_pos hr1]
  · right
    have hr2 : ¬ reachesB tadj (Nc + 1) I J = true := by
      intro hr2
      have hle := ancP_le_of_topo hv ht
        (hasPath_to_ancP hv (reachesB_to_hasPath tadj hr2))
      exact absurd hJ (not_lt.mpr hle)
    unfold relFromTree
    rw [if_neg hne, if_neg hr1, if_neg hr2]

/-- The builder run on the relation matrix of a topologically sorted valid
tree places every node under exactly its original parent. -/
lemma make_adj_relFromTree (hv : validAdj tadj) (ht : toposorted tadj) :
    make_adj (relFromTree tadj) = .ok tadj := by
  have h0 : relFromTree tadj 1 0 = Models.B_A := by
    rw [relFromTree_BA_iff hv fin_zero_ne_one]
    exact ⟨Nc + 1, hv.2.2.2.2 1⟩
  rw [make_adj_ok_char (relFromTree tadj) h0 (relFromTree_good hv ht)]
  have hfind : ∀ j : Fin (Nc + 2), 2 ≤ j.val →
      (descJs j).find? (fun J => decide (relFromTree tadj j J = Models.B_A)) =
        some (par tadj j) := by
    intro j h2
    have hj0 : j ≠ 0 := by
      intro hh
      rw [hh, Fin.val_zero] at h2
      omega
    have hplt : par tadj j < j := ht j hj0
    apply find?_first_gt
    · rw [decide_eq_true_iff]
      rw [relFromTree_BA_iff hv (par_spec hv hj0).1]
      exact ⟨1, by rw [Function.iterate_one]⟩
    · exact descJs_sorted j
    · exact mem_descJs.mpr hplt
    · intro y hy hlt
      rw [decide_eq_false_iff_not]
      intro hBA
      have hyj : y < j := mem_descJs.mp hy
      have hanc := (relFromTree_BA_iff hv (ne_of_lt hyj)).mp hBA
      obtain ⟨n, hn⟩ := hanc
      rcases Nat.eq_zero_or_pos n with hz | hpos
      · rw [hz, Function.iterate_zero_apply] at hn
        rw [hn] at hyj
        exact lt_irrefl y hyj
      · have hle := iterate_par_le_par hv ht hpos j
        rw [hn] at hle
        exact absurd hlt (not_lt.mpr hle)
  have hfn : ∀ i j : Fin (Nc + 2),
      (if 2 ≤ j.val then
        (match (descJs j).find? (fun J =>
            decide (relFromTree tadj j J = Models.B_A)) with
          | some J0 => if i = J0 then (1 : ℕ) else initAdj i j
          | none => initAdj i j)
      else initAdj i j) = tadj i j := by
    intro i j
    by_cases h2 : 2 ≤ j.val
    · have hj0 : j ≠ 0 := by
        intro hh
        rw [hh, Fin.val_zero] at h2
        omega
      rw [if_pos h2, hfind j h2]
      dsimp only
      rw [entry_char hv hj0 i]
      unfold initAdj
      have hj1 : ¬ j = 1 := by
        intro hh
        rw [hh, Fin.val_one] at h2
        omega
      by_cases hip : i = par tadj j
      · rw [if_pos hip]
        by_cases hij : i = j
        · rw [if_pos hij]
        · rw [if_neg hij, if_pos hip]
      · rw [if_neg hip]
        by_cases hij : i = j
        · rw [if_pos hij, if_pos hij]
        · rw [if_neg hij, if_neg (fun hh => hj1 hh.2), if_neg hij, if_neg hip]
    · rw [if_neg h2]
      have hjlt : j.val < 2 := by omega
      by_cases hj0 : j = 0
      · subst hj0
        unfold initAdj
        by_cases hi0 : i = 0
        · rw [if_pos hi0, hi0]
          exact (hv.2.1 0).symm
        · rw [if_neg hi0, if_neg (fun hh => hi0 hh.1),
            (valid_col0 hv i hi0)]
      · have hj1 : j = 1 := by
          apply Fin.ext
          rw [Fin.val_one]
          have : j.val ≠ 0 := fun hh => hj0 (by apply Fin.ext; rw [Fin.val_zero]; omega)
          omega
        subst hj1
        have hpar1 : par tadj 1 = 0 := by
          have hlt := ht 1 fin_one_ne_zero
          apply Fin.ext
          rw [Fin.val_zero]
          have := Fin.lt_iff_val_lt_val.mp hlt
          rw [Fin.val_one] at this
          omega
        rw [entry_char hv fin_one_ne_zero i, hpar1]
        unfold initAdj
        by_cases hi1 : i = 1
        · rw [if_pos hi1, if_pos hi1]
        · rw [if_neg hi1, if_neg hi1]
          by_cases hi0 : i = 0
          · rw [if_pos ⟨hi0, rfl⟩, if_pos hi0]
          · rw [if_neg (fun hh => hi0 hh.1), if_neg hi0]
  exact congrArg Except.ok (funext fun i => funext fun j => hfn i j)

end BuilderRoundTrip


/-- C7 (corrected): the deterministic builder raises exactly when node 1 is
not a child of node 0 or some relation `[I][J]` with `J < I` is neither
`B_A` nor `diff_branches`; when it does not raise and — this is the needed
correction — every node `I ≥ 2` is `B_A` to at least one earlier node, the
returned adjacency satisfies all the tree invariants; and on the relation
matrix derived from a topologically sorted valid tree it reconstructs
exactly that tree.  Without the placement hypothesis the "never a malformed
structure" part of the claim is false (see the counterexample). -/
theorem c7_builder_corrected {Nc : ℕ}
    (rel : Fin (Nc + 2) → Fin (Nc + 2) → Fin 5) (tadj : Adjm (Nc + 1))
    (hv : validAdj tadj) (ht : toposorted tadj) :
    ((∃ e, make_adj rel = .error e) ↔ raiseCond rel) ∧
    (¬ raiseCond rel → placeable rel →
      ∀ a, make_adj rel = .ok a → validAdj a) ∧
    make_adj (relFromTree tadj) = .ok tadj := by
  refine ⟨make_adj_error_iff rel, ?_, make_adj_relFromTree hv ht⟩
  intro hnr hp a ha
  have h0 : rel 1 0 = Models.B_A := by
    by_contra hc
    exact hnr (Or.inl hc)
  have hgood : ∀ I : Fin (Nc + 2), 2 ≤ I.val → ∀ J, J < I →
      rel I J = Models.B_A ∨ rel I J = Models.diff_branches := by
    intro I hI J hJ
    by_contra hc
    push_neg at hc
    exact hnr (Or.inr ⟨I, J, hI, hJ, hc.1, hc.2⟩)
  exact make_adj_valid rel h0 hgood hp a ha

/-- C7 counterexample to the claim as stated: on `c7rel` (node 2 is
`diff_branches` from both earlier nodes) `make_adj` does not meet the raise
condition, yet the matrix it returns leaves node 2 with no parent — a
malformed structure. -/
theorem c7_counterexample :
    make_adj c7rel = .ok c7adj ∧ ¬ raiseCond c7rel ∧ ¬ validAdj c7adj := by
  refine ⟨by decide, by decide, by decide⟩

/-- Witness for C7: the corrected theorem applied to the 3-node chain. -/
theorem c7_witness :
    validAdj c2adj ∧ toposorted c2adj ∧
    make_adj (relFromTree c2adj) = .ok c2adj :=
  ⟨by decide, by decide,
    (c7_builder_corrected (relFromTree c2adj) c2adj (by decide) (by decide)).2.2⟩




/-- C1 (refuted — code bug): `_make_W_dests_mutrel` builds the hypothetical
tree `new_adj` for every candidate destination but then scores the *current*
tree `adj`, so its log-weights do not depend on the destination.  On the
concrete 4-node tree `c1adj` (parent of node 3 is node 1), moving node 3
under destination 0 and under destination 2 yields hypothetical trees with
different total log-relation scores (−4 vs −6, current tree −5), yet the
informed destination weights at 0 and 2 are equal — contradicting "two
destinations whose hypothetical trees have different total log-relation
scores receive different informed weights". -/
theorem c1_dest_weights_ignore_destination :
    triuSum (calcTreeLogmutrel c1adj c1dlm) = -5 ∧
    triuSum (calcTreeLogmutrel (modify_tree c1adj c1anc 0 3) c1dlm) = -4 ∧
    triuSum (calcTreeLogmutrel (modify_tree c1adj c1anc 2 3) c1dlm) = -6 ∧
    make_W_dests_mutrel 3 1 c1adj c1anc c1depth c1dlm 0 =
      make_W_dests_mutrel 3 1 c1adj c1anc c1depth c1dlm 2 := by
  have hsum : ∀ f : Fin (3 + 1) → ℝ, ∑ i, f i = f 0 + f 1 + f 2 + f 3 :=
    fun f => Fin.sum_univ_four f
  refine ⟨?_, ?_, ?_, ?_⟩
  · have e11 : determine_node_rels c1adj 1 1 = Models.cocluster := by decide
    have e12 : determine_node_rels c1adj 1 2 = Models.A_B := by decide
    have e13 : determine_node_rels c1adj 1 3 = Models.A_B := by decide
    have e22 : determine_node_rels c1adj 2 2 = Models.cocluster := by decide
    have e23 : determine_node_rels c1adj 2 3 = Models.diff_branches := by decide
    have e33 : determine_node_rels c1adj 3 3 = Models.cocluster := by decide
    unfold triuSum
    simp only [hsum]
    simp +decide [calcTreeLogmutrel, c1dlm, e11, e12, e13, e22, e23, e33]
    norm_num
  · have e11 : determine_node_rels (modify_tree c1adj c1anc 0 3) 1 1 =
        Models.cocluster := by decide
    have e12 : determine_node_rels (modify_tree c1adj c1anc 0 3) 1 2 =
        Models.A_B := by decide
    have e13 : determine_node_rels (modify_tree c1adj c1anc 0 3) 1 3 =
        Models.diff_branches := by decide
    have e22 : determine_node_rels (modify_tree c1adj c1anc 0 3) 2 2 =
        Models.cocluster := by decide
    have e23 : determine_node_rels (modify_tree c1adj c1anc 0 3) 2 3 =
        Models.diff_branches := by decide
    have e33 : determine_node_rels (modify_tree c1adj c1anc 0 3) 3 3 =
        Models.cocluster := by decide
    unfold triuSum
    simp only [hsum]
    simp +decide [calcTreeLogmutrel, c1dlm, e11, e12, e13, e22, e23, e33]
    norm_num
  · have e11 : determine_node_rels (modify_tree c1adj c1anc 2 3) 1 1 =
        Models.cocluster := by decide
    have e12 : determine_node_rels (modify_tree c1adj c1anc 2 3) 1 2 =
        Models.A_B := by decide
    have e13 : determine_node_rels (modify_tree c1adj c1anc 2 3) 1 3 =
        Models.A_B := by decide
    have e22 : determine_node_rels (modify_tree c1adj c1anc 2 3) 2 2 =
        Models.cocluster := by decide
    have e23 : determine_node_rels (modify_tree c1adj c1anc 2 3) 2 3 =
        Models.A_B := by decide
    have e33 : determine_node_rels (modify_tree c1adj c1anc 2 3) 3 3 =
        Models.cocluster := by decide
    unfold triuSum
    simp only [hsum]
    simp +decide [calcTreeLogmutrel, c1dlm, e11, e12, e13, e22, e23, e33]
    norm_num
  · have c0 : ¬ ((0 : Fin 4) = 1 ∨ (0 : Fin 4) = 3) := by decide
    have c2 : ¬ ((2 : Fin 4) = 1 ∨ (2 : Fin 4) = 3) := by decide
    unfold make_W_dests_mutrel
    dsimp only
    simp only [if_neg c0, if_neg c2]
    unfold softmaxE
    dsimp only
    rw [if_neg c0, if_neg c2]


/-! ### C10: the categorical sampler's preconditions on every weight vector -/

section WeightVectors

lemma weight_vec_props {n : ℕ} (w : Fin n → ℝ) (mask : Fin n → Prop)
    (hzero : ∀ i, mask i → w i = 0) (hpos : ∀ i, ¬ mask i → 0 < w i)
    (i0 : Fin n) (hi0 : ¬ mask i0) :
    (∀ i, 0 ≤ w i / ∑ j, w j) ∧ (∑ i, w i / ∑ j, w j) = 1 ∧
    (∀ i, mask i → w i / ∑ j, w j = 0) ∧
    (∀ i, ¬ mask i → 0 < w i / ∑ j, w j) := by
  have hnn : ∀ i, 0 ≤ w i := by
    intro i
    by_cases h : mask i
    · rw [hzero i h]
    · exact le_of_lt (hpos i h)
  have hsum : 0 < ∑ j, w j :=
    Finset.sum_pos' (fun i _ => hnn i) ⟨i0, Finset.mem_univ i0, hpos i0 hi0⟩
  refine ⟨fun i => div_nonneg (hnn i) (le_of_lt hsum), ?_,
    fun i hi => by rw [hzero i hi, zero_div],
    fun i hi => div_pos (hpos i hi) hsum⟩
  rw [← Finset.sum_div, div_self (ne_of_gt hsum)]

lemma mixture_props {n : ℕ} (a b : Fin n → ℝ) (γ : ℝ) (hγ0 : 0 ≤ γ)
    (hγ1 : γ ≤ 1) (mask : Fin n → Prop)
    (ha : (∀ i, 0 ≤ a i) ∧ (∑ i, a i) = 1 ∧ (∀ i, mask i → a i = 0) ∧
      (∀ i, ¬ mask i → 0 < a i))
    (hb : (∀ i, 0 ≤ b i) ∧ (∑ i, b i) = 1 ∧ (∀ i, mask i → b i = 0) ∧
      (∀ i, ¬ mask i → 0 < b i)) :
    (∀ i, 0 ≤ γ * a i + (1 - γ) * b i) ∧
    (∑ i, (γ * a i + (1 - γ) * b i)) = 1 ∧
    (∀ i, mask i → γ * a i + (1 - γ) * b i = 0) ∧
    (∀ i, ¬ mask i → 0 < γ * a i + (1 - γ) * b i) := by
  refine ⟨?_, ?_, ?_, ?_⟩
  · intro i
    have := ha.1 i
    have := hb.1 i
    nlinarith
  · rw [Finset.sum_add_distrib, ← Finset.mul_sum, ← Finset.mul_sum,
      ha.2.1, hb.2.1]
    ring
  · intro i hi
    rw [ha.2.2.1 i hi, hb.2.2.1 i hi]
    ring
  · intro i hi
    rcases eq_or_lt_of_le hγ0 with h | h
    · have hbi := hb.2.2.2 i hi
      have : γ * a i + (1 - γ) * b i = b i := by rw [← h]; ring
      rw [this]
      exact hbi
    · exact add_pos_of_pos_of_nonneg (mul_pos h (ha.2.2.2 i hi))
        (mul_nonneg (by linarith) (hb.1 i))

lemma exists_unmasked {K : ℕ} (hK : 2 ≤ K) (a b : Fin (K + 1)) :
    ∃ d : Fin (K + 1), ¬ (d = a ∨ d = b) := by
  have hsub : ¬ (Finset.univ : Finset (Fin (K + 1))) ⊆ {a, b} := by
    intro hsub
    have hcard := Finset.card_le_card hsub
    rw [Finset.card_univ, Fintype.card_fin] at hcard
    have h2 : ({a, b} : Finset (Fin (K + 1))).card ≤ 2 := by
      refine le_trans (Finset.card_insert_le a {b}) ?_
      rw [Finset.card_singleton]
    omega
  obtain ⟨d, _, hd⟩ := Finset.not_subset.mp hsub
  refine ⟨d, fun h => hd ?_⟩
  rcases h with h | h
  · rw [h]
    exact Finset.mem_insert_self a {b}
  · rw [h]
    exact Finset.mem_insert_of_mem (Finset.mem_singleton_self b)

end WeightVectors

/-- C10: for trees with at least 3 nodes every weight vector built by the
proposal engine — uniform and informed, node- and destination-side, and
their `γ`-mixtures — is nonnegative, sums to 1, is exactly zero on the
masked entries and positive elsewhere, so the categorical sampler's
precondition holds; while with only 2 nodes the single non-root node's
parent is the root, the destination mask excludes every index, the raw
uniform destination weights sum to 0 and the normalized weights are all
zero (a division by a zero sum), no distribution at all. -/
theorem c10_weight_preconditions {K : ℕ} (hK : 2 ≤ K) (adj anc : Adjm K)
    (depth : Fin (K + 1) → ℝ) (dlm : Fin K → Fin K → Fin 5 → ℝ)
    (head parent : Fin (K + 1)) (γ : ℝ) (hγ0 : 0 ≤ γ) (hγ1 : γ ≤ 1) :
    ((∀ i, 0 ≤ make_W_nodes_uniform adj i) ∧
      (∑ i, make_W_nodes_uniform adj i) = 1 ∧
      (∀ i : Fin (K + 1), i = 0 → make_W_nodes_uniform adj i = 0) ∧
      (∀ i, ¬ i = 0 → 0 < make_W_nodes_uniform adj i)) ∧
    ((∀ i, 0 ≤ make_W_nodes_mutrel adj dlm i) ∧
      (∑ i, make_W_nodes_mutrel adj dlm i) = 1 ∧
      (∀ i : Fin (K + 1), i = 0 → make_W_nodes_mutrel adj dlm i = 0) ∧
      (∀ i, ¬ i = 0 → 0 < make_W_nodes_mutrel adj dlm i)) ∧
    ((∀ i, 0 ≤ make_W_dests_uniform head parent adj i) ∧
      (∑ i, make_W_dests_uniform head parent adj i) = 1 ∧
      (∀ i, i = head ∨ i = parent → make_W_dests_uniform head parent adj i = 0) ∧
      (∀ i, ¬ (i = head ∨ i = parent) →
        0 < make_W_dests_uniform head parent adj i)) ∧
    ((∀ i, 0 ≤ make_W_dests_mutrel head parent adj anc depth dlm i) ∧
      (∑ i, make_W_dests_mutrel head parent adj anc depth dlm i) = 1 ∧
      (∀ i, i = head ∨ i = parent →
        make_W_dests_mutrel head parent adj anc depth dlm i = 0) ∧
      (∀ i, ¬ (i = head ∨ i = parent) →
        0 < make_W_dests_mutrel head parent adj anc depth dlm i)) ∧
    ((∀ i, 0 ≤ (make_W_nodes_combined adj dlm γ).2 i) ∧
      (∑ i, (make_W_nodes_combined adj dlm γ).2 i) = 1 ∧
      (∀ i : Fin (K + 1), i = 0 → (make_W_nodes_combined adj dlm γ).2 i = 0) ∧
      (∀ i, ¬ i = 0 → 0 < (make_W_nodes_combined adj dlm γ).2 i)) ∧
    ((∀ i, 0 ≤ (make_W_dests_combined head parent adj anc depth dlm γ).2 i) ∧
      (∑ i, (make_W_dests_combined head parent adj anc depth dlm γ).2 i) = 1 ∧
      (∀ i, i = head ∨ i = parent →
        (make_W_dests_combined head parent adj anc depth dlm γ).2 i = 0) ∧
      (∀ i, ¬ (i = head ∨ i = parent) →
        0 < (make_W_dests_combined head parent adj anc depth dlm γ).2 i)) ∧
    (∀ adj1 : Adjm 1, validAdj adj1 →
      find_parent 1 adj1 = 0 ∧
      (∑ j, make_W_dests_uniform_raw 1 (find_parent 1 adj1) adj1 j) = 0 ∧
      ∀ d, make_W_dests_uniform 1 (find_parent 1 adj1) adj1 d = 0) := by
  have hone : (1 : ℕ) ≤ K := le_trans (by omega) hK
  have hi1 : ¬ ((⟨1, by omega⟩ : Fin (K + 1)) = 0) := by
    intro hh
    have h := congrArg Fin.val hh
    simp at h
  have hWnu := weight_vec_props
    (fun i : Fin (K + 1) => if i = 0 then (0 : ℝ) else 1) (fun i => i = 0)
    (fun i hi => if_pos hi)
    (fun i hi => by
      have hi2 : ¬ i = 0 := hi
      dsimp only
      rw [if_neg hi2]
      norm_num)
    ⟨1, by omega⟩ hi1
  have hWnm := weight_vec_props
    (fun i : Fin (K + 1) => if h : i = 0 then (0 : ℝ)
      else max 1e-10 (softmax (fun c : Fin K =>
        logsumexp (fun j => Real.log (max 1e-10
          (1 - Real.exp (calcTreeLogmutrel adj dlm c.succ j))))) (i.pred h)))
    (fun i => i = 0) (fun i hi => dif_pos hi)
    (fun i hi => by
      have hi2 : ¬ i = 0 := hi
      dsimp only
      rw [dif_neg hi2]
      exact lt_of_lt_of_le (by norm_num) (le_max_left _ _))
    ⟨1, by omega⟩ hi1
  obtain ⟨d0, hd0⟩ := exists_unmasked hK head parent
  have hWdu := weight_vec_props
    (make_W_dests_uniform_raw head parent adj) (fun i => i = head ∨ i = parent)
    (fun i hi => if_pos hi)
    (fun i hi => by
      have hi2 : ¬ (i = head ∨ i = parent) := hi
      unfold make_W_dests_uniform_raw
      rw [if_neg hi2]
      norm_num)
    d0 hd0
  have hWdm := weight_vec_props
    (fun d : Fin (K + 1) => if d = parent ∨ d = head then (0 : ℝ)
      else max 1e-10 (softmaxE (fun dest => if dest = parent ∨ dest = head
        then (⊥ : EReal)
        else ((triuSum (calcTreeLogmutrel adj dlm) : ℝ) : EReal)) d))
    (fun i => i = head ∨ i = parent)
    (fun i hi => if_pos (Or.symm hi))
    (fun i hi => by
      have hi2 : ¬ (i = parent ∨ i = head) := fun hh => hi (Or.symm hh)
      dsimp only
      rw [if_neg hi2]
      exact lt_of_lt_of_le (by norm_num) (le_max_left _ _))
    d0 hd0
  refine ⟨hWnu, ?_, hWdu, ?_, ?_, ?_, ?_⟩
  · exact hWnm
  · exact hWdm
  · exact mixture_props (make_W_nodes_uniform adj) (make_W_nodes_mutrel adj dlm)
      γ hγ0 hγ1 (fun i => i = 0) hWnu hWnm
  · exact mixture_props (make_W_dests_uniform head parent adj)
      (make_W_dests_mutrel head parent adj anc depth dlm)
      γ hγ0 hγ1 (fun i => i = head ∨ i = parent) hWdu hWdm
  · intro adj1 hv1
    have h00 : adj1 0 0 = 1 := hv1.2.1 0
    have h11 : adj1 1 1 = 1 := hv1.2.1 1
    have h10 : adj1 1 0 = 0 := valid_col0 hv1 1 (by decide)
    have h01 : adj1 0 1 = 1 := by
      have hsum := offdiag_col_sum hv1 (by decide : (1 : Fin 2) ≠ 0)
      rw [show (Finset.univ.erase (1 : Fin 2)) = {0} from by decide,
        Finset.sum_singleton] at hsum
      exact hsum
    have hadj : adj1 = fun i j : Fin 2 => if i.val ≤ j.val then 1 else 0 := by
      funext i j
      fin_cases i <;> fin_cases j
      · exact h00
      · exact h01
      · exact h10
      · exact h11
    rw [hadj]
    refine ⟨by decide, ?_, ?_⟩
    · rw [show find_parent (1 : Fin 2)
        (fun i j : Fin 2 => if i.val ≤ j.val then 1 else 0) = 0 from by decide]
      rw [Fin.sum_univ_two]
      unfold make_W_dests_uniform_raw
      norm_num
    · intro d
      rw [show find_parent (1 : Fin 2)
        (fun i j : Fin 2 => if i.val ≤ j.val then 1 else 0) = 0 from by decide]
      unfold make_W_dests_uniform make_W_dests_uniform_raw
      have hd : d = 1 ∨ d = 0 := by
        fin_cases d
        · exact Or.inr rfl
        · exact Or.inl rfl
      rw [if_pos hd, zero_div]


/-- Witness for C10: the precondition theorem applied to the concrete
3-node chain with head 2, parent 1 and mixing weight 1/2. -/
theorem c10_witness :
    (2 ≤ 2) ∧ (0 ≤ (1/2 : ℝ)) ∧ ((1/2 : ℝ) ≤ 1) ∧
    (∑ i, make_W_nodes_uniform c2adj i) = 1 ∧
    (∑ i, make_W_dests_uniform 2 1 c2adj i) = 1 :=
  ⟨by norm_num, by norm_num, by norm_num,
    (c10_weight_preconditions (by norm_num) c2adj c2anc (fun _ => 0)
      (fun _ _ _ => 0) 2 1 (1/2) (by norm_num) (by norm_num)).1.2.1,
    (c10_weight_preconditions (by norm_num) c2adj c2anc (fun _ => 0)
      (fun _ _ _ => 0) 2 1 (1/2) (by norm_num) (by norm_num)).2.2.1.2.1⟩


/-! ### C5: the Metropolis–Hastings acceptance rule -/

/-- C5: at each iteration the acceptance log-ratio equals
(candidate log-likelihood − current log-likelihood) +
(log reverse proposal probability − log forward proposal probability),
where forward = `P(B) · P(A | B)` under the current tree's mixture weights
and reverse = `P(B) · P(former parent | B)` under the candidate tree's; the
candidate is accepted iff this ratio is `≥ log U`, and on rejection the
current sample is retained unchanged.  (The positivity hypotheses let the
log of each product split; C10 shows they hold for every sampled index.) -/
theorem c5_mh_acceptance_rule {K : ℕ} {Phi : Type _} (old : TreeSample K Phi)
    (dlm : Fin K → Fin K → Fin 5 → ℝ) (gamma : ℝ) (B A : Fin (K + 1))
    (calc_phi : Adjm K → Phi) (calc_llh : Adjm K → Phi → ℝ) (U : ℝ)
    (h1 : 0 < (make_W_nodes_combined old.adj dlm gamma).2 B)
    (h2 : 0 < (make_W_dests_combined B (find_parent B old.adj) old.adj old.anc
      old.depth_frac dlm gamma).2 A)
    (h3 : 0 < (make_W_nodes_combined
      (generate_new_sample old dlm gamma B A calc_phi calc_llh).1.adj
      dlm gamma).2 B)
    (h4 : 0 < (make_W_dests_combined B
      (find_parent B (generate_new_sample old dlm gamma B A calc_phi calc_llh).1.adj)
      (generate_new_sample old dlm gamma B A calc_phi calc_llh).1.adj
      (generate_new_sample old dlm gamma B A calc_phi calc_llh).1.anc
      (generate_new_sample old dlm gamma B A calc_phi calc_llh).1.depth_frac
      dlm gamma).2 (find_parent B old.adj)) :
    ((run_chain_step old dlm gamma B A calc_phi calc_llh U).2 = true ↔
      ((generate_new_sample old dlm gamma B A calc_phi calc_llh).1.llh_phi
          - old.llh_phi) +
        (Real.log (reverse_proposal_prob old dlm gamma B A calc_phi calc_llh) -
          Real.log (forward_proposal_prob old dlm gamma B A)) ≥ Real.log U) ∧
    ((run_chain_step old dlm gamma B A calc_phi calc_llh U).2 = true →
      (run_chain_step old dlm gamma B A calc_phi calc_llh U).1 =
        (generate_new_sample old dlm gamma B A calc_phi calc_llh).1) ∧
    ((run_chain_step old dlm gamma B A calc_phi calc_llh U).2 = false →
      (run_chain_step old dlm gamma B A calc_phi calc_llh U).1 = old) := by
  have hrfl_f : forward_proposal_prob old dlm gamma B A =
      (make_W_nodes_combined old.adj dlm gamma).2 B *
      (make_W_dests_combined B (find_parent B old.adj) old.adj old.anc
        old.depth_frac dlm gamma).2 A := rfl
  have hrfl_r : reverse_proposal_prob old dlm gamma B A calc_phi calc_llh =
      (make_W_nodes_combined
        (generate_new_sample old dlm gamma B A calc_phi calc_llh).1.adj
        dlm gamma).2 B *
      (make_W_dests_combined B
        (find_parent B (generate_new_sample old dlm gamma B A calc_phi calc_llh).1.adj)
        (generate_new_sample old dlm gamma B A calc_phi calc_llh).1.adj
        (generate_new_sample old dlm gamma B A calc_phi calc_llh).1.anc
        (generate_new_sample old dlm gamma B A calc_phi calc_llh).1.depth_frac
        dlm gamma).2 (find_parent B old.adj) := rfl
  have hgen1 : (generate_new_sample old dlm gamma B A calc_phi calc_llh).2.1 =
      Real.log ((make_W_nodes_combined old.adj dlm gamma).2 B) +
      Real.log ((make_W_dests_combined B (find_parent B old.adj) old.adj old.anc
        old.depth_frac dlm gamma).2 A) := rfl
  have hgen2 : (generate_new_sample old dlm gamma B A calc_phi calc_llh).2.2 =
      Real.log ((make_W_nodes_combined
        (generate_new_sample old dlm gamma B A calc_phi calc_llh).1.adj
        dlm gamma).2 B) +
      Real.log ((make_W_dests_combined B
        (find_parent B (generate_new_sample old dlm gamma B A calc_phi calc_llh).1.adj)
        (generate_new_sample old dlm gamma B A calc_phi calc_llh).1.adj
        (generate_new_sample old dlm gamma B A calc_phi calc_llh).1.anc
        (generate_new_sample old dlm gamma B A calc_phi calc_llh).1.depth_frac
        dlm gamma).2 (find_parent B old.adj)) := rfl
  have hdiff : (generate_new_sample old dlm gamma B A calc_phi calc_llh).2.2 -
      (generate_new_sample old dlm gamma B A calc_phi calc_llh).2.1 =
      Real.log (reverse_proposal_prob old dlm gamma B A calc_phi calc_llh) -
      Real.log (forward_proposal_prob old dlm gamma B A) := by
    rw [hgen1, hgen2, hrfl_f, hrfl_r,
      Real.log_mul (ne_of_gt h1) (ne_of_gt h2),
      Real.log_mul (ne_of_gt h3) (ne_of_gt h4)]
  have hstep2 : (run_chain_step old dlm gamma B A calc_phi calc_llh U).2 =
      decide ((((generate_new_sample old dlm gamma B A calc_phi calc_llh).1.llh_phi
          - old.llh_phi) +
        ((generate_new_sample old dlm gamma B A calc_phi calc_llh).2.2 -
          (generate_new_sample old dlm gamma B A calc_phi calc_llh).2.1)) ≥
        Real.log U) := rfl
  refine ⟨?_, ?_, ?_⟩
  · rw [hstep2, decide_eq_true_eq, hdiff]
  · intro hacc
    show (if (run_chain_step old dlm gamma B A calc_phi calc_llh U).2 = true
        then (generate_new_sample old dlm gamma B A calc_phi calc_llh).1
        else old) =
      (generate_new_sample old dlm gamma B A calc_phi calc_llh).1
    rw [if_pos hacc]
  · intro hrej
    show (if (run_chain_step old dlm gamma B A calc_phi calc_llh U).2 = true
        then (generate_new_sample old dlm gamma B A calc_phi calc_llh).1
        else old) = old
    rw [if_neg (by rw [hrej]; exact Bool.false_ne_true)]


lemma combined_pos_of_uniform_pos {n : ℕ} (a b : Fin n → ℝ) (i : Fin n)
    (ha : 0 < a i) : 0 < 1 * a i + (1 - 1) * b i := by
  have h : 1 * a i + (1 - 1) * b i = a i := by ring
  rw [h]
  exact ha

/-- Witness for C5: the acceptance rule at the 3-node chain, with head 2,
destination 0 and mixing weight 1 (the mutrel components drop out). -/
theorem c5_witness :
    0 < (make_W_nodes_combined c2adj (fun _ _ _ => 0) 1).2 2 ∧
    ((run_chain_step (⟨c2adj, c2anc, fun _ => 0, (), 0⟩ : TreeSample 2 Unit)
        (fun _ _ _ => 0) 1 2 0 (fun _ => ()) (fun _ _ => 0) 1).2 = true ↔
      (((generate_new_sample (⟨c2adj, c2anc, fun _ => 0, (), 0⟩ : TreeSample 2 Unit)
            (fun _ _ _ => 0) 1 2 0 (fun _ => ()) (fun _ _ => 0)).1.llh_phi -
          (⟨c2adj, c2anc, fun _ => 0, (), 0⟩ : TreeSample 2 Unit).llh_phi) +
        (Real.log (reverse_proposal_prob
            (⟨c2adj, c2anc, fun _ => 0, (), 0⟩ : TreeSample 2 Unit)
            (fun _ _ _ => 0) 1 2 0 (fun _ => ()) (fun _ _ => 0)) -
          Real.log (forward_proposal_prob
            (⟨c2adj, c2anc, fun _ => 0, (), 0⟩ : TreeSample 2 Unit)
            (fun _ _ _ => 0) 1 2 0)) ≥ Real.log 1)) := by
  have hs3 : ∀ f : Fin (2 + 1) → ℝ, ∑ i, f i = f 0 + f 1 + f 2 :=
    fun f => Fin.sum_univ_three f
  have hun : ∀ X : Adjm 2, 0 < make_W_nodes_uniform X 2 := by
    intro X
    unfold make_W_nodes_uniform
    dsimp only
    rw [hs3]
    simp +decide
  have hdu_old : 0 < make_W_dests_uniform 2 1 c2adj 0 := by
    unfold make_W_dests_uniform make_W_dests_uniform_raw
    rw [hs3]
    simp +decide
  have hdu_new : 0 < make_W_dests_uniform 2 0 (modify_tree c2adj c2anc 0 2) 1 := by
    unfold make_W_dests_uniform make_W_dests_uniform_raw
    rw [hs3]
    simp +decide
  have hp_old : find_parent 2 c2adj = 1 := by decide
  have hnewadj : (generate_new_sample
      (⟨c2adj, c2anc, fun _ => 0, (), 0⟩ : TreeSample 2 Unit)
      (fun _ _ _ => 0) 1 2 0 (fun _ => ()) (fun _ _ => 0)).1.adj =
      modify_tree c2adj c2anc 0 2 := rfl
  have hp_new : find_parent 2 (modify_tree c2adj c2anc 0 2) = 0 := by decide
  have h1 : 0 < (make_W_nodes_combined c2adj (fun _ _ _ => 0) 1).2 2 :=
    combined_pos_of_uniform_pos (make_W_nodes_uniform c2adj)
      (make_W_nodes_mutrel c2adj (fun _ _ _ => 0)) 2 (hun c2adj)
  have h2a : 0 < make_W_dests_uniform 2 (find_parent 2 c2adj) c2adj 0 := by
    rw [hp_old]
    exact hdu_old
  have h2 : 0 < (make_W_dests_combined 2 (find_parent 2 c2adj) c2adj c2anc
      (fun _ => (0 : ℝ)) (fun _ _ _ => (0 : ℝ)) 1).2 0 :=
    combined_pos_of_uniform_pos
      (make_W_dests_uniform 2 (find_parent 2 c2adj) c2adj)
      (make_W_dests_mutrel 2 (find_parent 2 c2adj) c2adj c2anc
        (fun _ => 0) (fun _ _ _ => 0)) 0 h2a
  have h3 : 0 < (make_W_nodes_combined
      (generate_new_sample (⟨c2adj, c2anc, fun _ => 0, (), 0⟩ : TreeSample 2 Unit)
        (fun _ _ _ => 0) 1 2 0 (fun _ => ()) (fun _ _ => 0)).1.adj
      (fun _ _ _ => 0) 1).2 2 :=
    combined_pos_of_uniform_pos _ _ 2
      (hun (generate_new_sample
        (⟨c2adj, c2anc, fun _ => 0, (), 0⟩ : TreeSample 2 Unit)
        (fun _ _ _ => 0) 1 2 0 (fun _ => ()) (fun _ _ => 0)).1.adj)
  have h4a : 0 < make_W_dests_uniform 2
      (find_parent 2 (generate_new_sample
        (⟨c2adj, c2anc, fun _ => 0, (), 0⟩ : TreeSample 2 Unit)
        (fun _ _ _ => 0) 1 2 0 (fun _ => ()) (fun _ _ => 0)).1.adj)
      (generate_new_sample (⟨c2adj, c2anc, fun _ => 0, (), 0⟩ : TreeSample 2 Unit)
        (fun _ _ _ => 0) 1 2 0 (fun _ => ()) (fun _ _ => 0)).1.adj 1 := by
    rw [hnewadj, hp_new]
    exact hdu_new
  have h4b : 0 < make_W_dests_uniform 2
      (find_parent 2 (generate_new_sample
        (⟨c2adj, c2anc, fun _ => 0, (), 0⟩ : TreeSample 2 Unit)
        (fun _ _ _ => 0) 1 2 0 (fun _ => ()) (fun _ _ => 0)).1.adj)
      (generate_new_sample (⟨c2adj, c2anc, fun _ => 0, (), 0⟩ : TreeSample 2 Unit)
        (fun _ _ _ => 0) 1 2 0 (fun _ => ()) (fun _ _ => 0)).1.adj
      (find_parent 2 c2adj) := by
    rw [hp_old]
    exact h4a
  have h4 : 0 < (make_W_dests_combined 2
      (find_parent 2 (generate_new_sample
        (⟨c2adj, c2anc, fun _ => 0, (), 0⟩ : TreeSample 2 Unit)
        (fun _ _ _ => 0) 1 2 0 (fun _ => ()) (fun _ _ => 0)).1.adj)
      (generate_new_sample (⟨c2adj, c2anc, fun _ => 0, (), 0⟩ : TreeSample 2 Unit)
        (fun _ _ _ => 0) 1 2 0 (fun _ => ()) (fun _ _ => 0)).1.adj
      (generate_new_sample (⟨c2adj, c2anc, fun _ => 0, (), 0⟩ : TreeSample 2 Unit)
        (fun _ _ _ => 0) 1 2 0 (fun _ => ()) (fun _ _ => 0)).1.anc
      (generate_new_sample (⟨c2adj, c2anc, fun _ => 0, (), 0⟩ : TreeSample 2 Unit)
        (fun _ _ _ => 0) 1 2 0 (fun _ => ()) (fun _ _ => 0)).1.depth_frac
      (fun _ _ _ => (0 : ℝ)) 1).2 (find_parent 2 c2adj) :=
    combined_pos_of_uniform_pos _ _ (find_parent 2 c2adj) h4b
  exact ⟨h1, (c5_mh_acceptance_rule
    (⟨c2adj, c2anc, fun _ => 0, (), 0⟩ : TreeSample 2 Unit)
    (fun _ _ _ => 0) 1 2 0 (fun _ => ()) (fun _ _ => 0) 1 h1 h2 h3 h4).1⟩

end Pairtree
